import Mathlib

/-! Process table of the i386 kernel (`src/arch/i386/proc.c`).

A shallow embedding of the process lifecycle code: the process table
(`struct ptable`), the process descriptors (`struct proc`), the per-core
current-process slot (`struct cpu`), and the operations `proc_init`,
`proc_alloc`, `proc_free`, `user_init`, `scheduler`, `sched`, `fork`, `wait`,
`serve` and `exit`.

* A pointer to a `struct proc` is its 32-bit address, a `Nat`.
* An intrusive list (`struct list_head`) is the `List` of the addresses of the
  descriptors whose link is on it, front first.
* A failed `assert`, a `panic` and a dereference of a null `thisproc()` are
  `none`.
* Every operation is one step taken under `ptable.lock`; the step ends where the
  code releases the lock or switches to the scheduler with `sched()`.
-/

namespace Kern

/-! ## Constants and layout -/

/-- Sizes and constants that `proc.c` takes from headers that are not among the
sources (`memlayout.h`, `mmu.h`, `x86.h`, `elf.h`); they are parameters. -/
structure Arch where
  KSTKSIZE : Nat
  sizeof_trapframe : Nat
  SEL_UDATA : Nat
  SEL_UCODE : Nat
  USTACKTOP : Nat
  FL_IF : Nat
  ELF_MAGIC : Nat
  ELF_PROG_LOAD : Nat
  KERNBASE : Nat

/-- The value of `PROC_MAGIC` (`inc.h`, line 82). -/
def PROC_MAGIC : Nat := 0xabcdcccc

/-- The value of `PROC_BUCKET_SIZE` (`inc.h`, line 96). -/
def PROC_BUCKET_SIZE : Nat := 769

/-- The macro `HASH(x)`: `((uint32_t)x) % PROC_BUCKET_SIZE`. -/
def HASH (x : Nat) : Nat := (x % 4294967296) % PROC_BUCKET_SIZE

/-- Modelled from the spec: `struct list_head` of `inc/list.h`, which is not
among the sources, is a link of two 32-bit pointers. -/
def sizeof_list_head : Nat := 8

/-- The size of `struct context`: five packed `uint32_t`. -/
def sizeof_context : Nat := 20

/-- The size of `struct proc` on i386: `magic`, `pgdir`, three links, `msgi`,
`context`, `tf`. -/
def sizeof_proc : Nat := 4 + 4 + 3 * sizeof_list_head + 4 + 4 + 4

/-- The offset of the field `hlist` in `struct proc`. -/
def OFF_hlist : Nat := 4 + 4

/-- The offset of the field `pos` in `struct proc`. -/
def OFF_pos : Nat := 4 + 4 + 2 * sizeof_list_head

/-- The size of the packed `struct hackframe` of `proc_alloc`: a context, a
return address, a trap frame and a process descriptor. -/
def sizeof_hackframe (A : Arch) : Nat :=
  sizeof_context + 4 + A.sizeof_trapframe + sizeof_proc

/-! ## Data model -/

/-- The fields of `struct trapframe` that `proc.c` names; `regs` stands for the
remaining words of the frame. -/
structure trapframe where
  eax : Nat
  eip : Nat
  esp : Nat
  eflags : Nat
  err : Nat
  cs : Nat
  ds : Nat
  es : Nat
  ss : Nat
  fs : Nat
  gs : Nat
  regs : List Nat
deriving DecidableEq, Repr

/-- The contents of a `struct proc` together with the trap frame `tf` points
to. The links `hlist` and `pos` are represented by the lists that hold them. -/
structure proc where
  magic : Nat
  pgdir : Nat
  wait_list : List Nat
  tf : trapframe
deriving DecidableEq, Repr

/-- The kernel state that `proc.c` reads and writes: the three containers of
`struct ptable`, the memory seen as process descriptors, `cpus[c].proc` for each
core, and the addresses handed to `kfree` so far. -/
structure Kernel where
  hlist : Nat → List Nat
  ready_list : List Nat
  zombie_list : List Nat
  procs : Nat → proc
  cpus : Nat → Option Nat
  kfreed : List Nat

/-- The image handed to `ucode_load`: the fields of the ELF header and of the
program headers that the loader tests. -/
structure ElfImage where
  magic : Nat
  entry : Nat
  ph : List (Nat × Nat × Nat)
deriving DecidableEq, Repr

/-- Pointwise update of a map. -/
def upd {β : Type} (f : Nat → β) (a : Nat) (v : β) : Nat → β :=
  fun x => if x = a then v else f x

/-! ## List primitives

`inc/list.h` is not among the sources. A list is a FIFO queue of links:
`list_push_back` appends at the tail, `list_front` is the head, `list_drop`
unlinks a link from the list that holds it, `list_find` searches a list for the
address of a link, `list_empty` tests for the empty list. -/

/-- Modelled from the spec: `list_push_back(head, node)` of `inc/list.h` admits
`node` at the tail of the queue. -/
def list_push_back (l : List Nat) (x : Nat) : List Nat := l ++ [x]

/-- Modelled from the spec: the effect of `list_drop(node)` of `inc/list.h` on one
list, from which `node` is unlinked. -/
def list_remove (l : List Nat) (x : Nat) : List Nat := l.filter (fun y => y != x)

/-- Modelled from the spec: `list_find(head, node)` of `inc/list.h`. The list
holds the links at offset `off` of its members; `node` is the address searched
for. -/
def list_find (l : List Nat) (off : Nat) (node : Nat) : Bool :=
  l.any (fun q => q + off == node)

/-- Modelled from the spec: `list_drop(&x->pos)` of `inc/list.h`. The position
link of `x` leaves the queue or wait collection that holds it. -/
def list_drop_pos (s : Kernel) (x : Nat) : Kernel :=
  { s with
    ready_list := list_remove s.ready_list x
    zombie_list := list_remove s.zombie_list x
    procs := fun q => { s.procs q with wait_list := list_remove (s.procs q).wait_list x } }

/-- Modelled from the spec: `list_drop(&x->hlist)` of `inc/list.h`. The index
link of `x` leaves its bucket. -/
def list_drop_hlist (s : Kernel) (x : Nat) : Kernel :=
  { s with hlist := fun i => list_remove (s.hlist i) x }

/-! ## Operations of `proc.c` -/

/-- `PROC_EXISTS(p)`: the index link of `p` is in bucket `HASH(p)` and the
liveness tag of `p` is `PROC_MAGIC`. -/
def PROC_EXISTS (s : Kernel) (p : Nat) : Bool :=
  list_find (s.hlist (HASH p)) OFF_hlist (p + OFF_hlist) && (s.procs p).magic == PROC_MAGIC

/-- `thisproc()`: the process of the calling core, `none` for a null pointer. -/
def thisproc (s : Kernel) (c : Nat) : Option Nat := s.cpus c

/-- `proc_init()`: every bucket, the ready queue and the zombie queue are
emptied. -/
def proc_init (s : Kernel) : Kernel :=
  { s with hlist := fun _ => [], ready_list := [], zombie_list := [] }

/-- The address `&hf->p` that `proc_alloc` computes from the block `b` returned
by `kalloc(KSTKSIZE)`, in 32-bit pointer arithmetic. -/
def proc_alloc_addr (A : Arch) (b : Nat) : Nat :=
  let hf := (b + A.KSTKSIZE + (4294967296 - sizeof_hackframe A % 4294967296)) % 4294967296
  (hf + sizeof_context + 4 + A.sizeof_trapframe) % 4294967296

/-- `proc_alloc()` with `b` the block returned by `kalloc(KSTKSIZE)`: the trap
frame is set up, the tag is written, the descriptor is pushed on its bucket and
its wait collection is initialised. Returns the new state and the descriptor. -/
def proc_alloc (A : Arch) (s : Kernel) (b : Nat) : Kernel × Nat :=
  let p := proc_alloc_addr A b
  let old := s.procs p
  let tf : trapframe :=
    { old.tf with
      ds := A.SEL_UDATA, cs := A.SEL_UCODE, es := A.SEL_UDATA, ss := A.SEL_UDATA,
      fs := A.SEL_UDATA, gs := A.SEL_UDATA, esp := A.USTACKTOP, eflags := A.FL_IF,
      eip := 0, err := 0 }
  ({ s with
      hlist := upd s.hlist (HASH p) (list_push_back (s.hlist (HASH p)) p)
      procs := upd s.procs p { old with tf := tf, magic := PROC_MAGIC, wait_list := [] } },
   p)

/-- The address that `proc_free(p)` hands to `kfree`:
`p + sizeof(struct proc) - KSTKSIZE` with `p` a `struct proc *`, so both
displacements are scaled by `sizeof(struct proc)`; 32-bit arithmetic. -/
def kfree_arg (A : Arch) (p : Nat) : Nat :=
  (p + sizeof_proc * sizeof_proc
     + (4294967296 - (A.KSTKSIZE * sizeof_proc) % 4294967296)) % 4294967296

/-- `proc_free(p)`: the entry assertion, the index link is dropped, the block is
handed to `kfree`, then the four closing assertions. `vm_free` and `kfree` are
outside the sources: they leave the modelled state as it is, but for the log of
the addresses handed to `kfree`. -/
def proc_free (A : Arch) (s : Kernel) (p : Nat) : Option Kernel :=
  if PROC_EXISTS s p then
    let s1 := list_drop_hlist s p
    let s2 := { s1 with kfreed := s1.kfreed ++ [kfree_arg A p] }
    if list_find (s2.hlist (HASH p)) OFF_hlist (p + OFF_hlist) then none
    else if list_find s2.ready_list OFF_pos (p + OFF_hlist) then none
    else if list_find s2.zombie_list OFF_pos (p + OFF_hlist) then none
    else if (s2.procs p).wait_list.isEmpty then some s2
    else none
  else none

/-- `ucode_load(p, binary)`: the ELF check, the two assertions on every loadable
segment, and the entry point written to the trap frame of `p`. -/
def ucode_load (A : Arch) (s : Kernel) (p : Nat) (img : ElfImage) : Option Kernel :=
  if img.magic = A.ELF_MAGIC then
    if img.ph.all (fun h =>
        h.1 != A.ELF_PROG_LOAD ||
          (decide (h.2.1 < (h.2.1 + h.2.2) % 4294967296) &&
            decide ((h.2.1 + h.2.2) % 4294967296 ≤ A.KERNBASE))) then
      some { s with
        procs := upd s.procs p { s.procs p with tf := { (s.procs p).tf with eip := img.entry } } }
    else none
  else none

/-- `user_init()`: the first process is allocated in block `b`, given the
address space `pg`, loaded, and admitted to the ready queue. -/
def user_init (A : Arch) (s : Kernel) (b pg : Nat) (img : ElfImage) : Option Kernel :=
  let r := proc_alloc A s b
  let p := r.2
  let s1 := { r.1 with procs := upd r.1.procs p { r.1.procs p with pgdir := pg } }
  (ucode_load A s1 p img).map
    (fun s2 => { s2 with ready_list := list_push_back s2.ready_list p })

/-- One pass of the loop of `scheduler()` on core `c`, up to the switch into the
dispatched process: the head of the ready queue is dropped from it, checked, and
recorded as the process of the core. -/
def scheduler (s : Kernel) (c : Nat) : Option Kernel :=
  match s.ready_list with
  | [] => some s
  | p :: _ =>
    let s1 := list_drop_pos s p
    if PROC_EXISTS s1 p then some { s1 with cpus := upd s1.cpus c (some p) }
    else none

/-- `sched()`: the switch to the scheduler of core `c`, which resumes after its
`swtch` and clears the process slot of the core (`scheduler`, line 189). -/
def sched (s : Kernel) (c : Nat) : Kernel :=
  { s with cpus := upd s.cpus c none }

/-- The conversion `(int)p` of a 32-bit pointer. -/
def to_int (p : Nat) : Int :=
  if p % 4294967296 < 2147483648 then ((p % 4294967296 : Nat) : Int)
  else ((p % 4294967296 : Nat) : Int) - 4294967296

/-- `fork()` on core `c`, with `b` the block returned by `kalloc` and `pg` the
address space returned by `vm_fork`. Returns the new state and `(int)p`. -/
def fork (A : Arch) (s : Kernel) (c b pg : Nat) : Option (Kernel × Int) :=
  match thisproc s c with
  | none => none
  | some tp =>
    let r := proc_alloc A s b
    let p := r.2
    let s1 := r.1
    let s2 := { s1 with procs := upd s1.procs p { s1.procs p with pgdir := pg } }
    let s3 := { s2 with procs := upd s2.procs p { s2.procs p with tf := (s2.procs tp).tf } }
    let s4 := { s3 with
      procs := upd s3.procs p { s3.procs p with tf := { (s3.procs p).tf with eax := 0 } } }
    some ({ s4 with ready_list := list_push_back s4.ready_list p }, to_int p)

/-- The first loop of `wait`: while the zombie queue is not empty its front is
dropped from the queue and freed. The queue shrinks at every pass, so its length
is enough fuel. -/
def reap (A : Arch) : Nat → Kernel → Option Kernel
  | 0, s => if s.zombie_list.isEmpty then some s else none
  | n + 1, s =>
    match s.zombie_list with
    | [] => some s
    | zp :: _ => (proc_free A (list_drop_pos s zp) zp).bind (reap A n)

/-- `wait(p)` on core `c` up to its return or its suspension. The result is
`some (-1)` when the call returns at once, and `none` when the caller is on the
wait collection of `p` and has switched to the scheduler (it returns `0` when it
is resumed). -/
def wait (A : Arch) (s : Kernel) (c p : Nat) : Option (Kernel × Option Int) :=
  match reap A s.zombie_list.length s with
  | none => none
  | some s1 =>
    if PROC_EXISTS s1 p then
      match thisproc s1 c with
      | none => none
      | some tp =>
        let s2 := { s1 with
          procs := upd s1.procs p
            { s1.procs p with wait_list := list_push_back (s1.procs p).wait_list tp } }
        some (sched s2 c, none)
    else some (s1, some (-1))

/-- `serve()` on core `c` up to its return or its next suspension. The result is
`none` when the wait collection is empty and the caller has re-admitted itself
and yielded (the loop is entered again when it is resumed), and `some p` when
the front waiter `p` is returned. -/
def serve (s : Kernel) (c : Nat) : Option (Kernel × Option Nat) :=
  match thisproc s c with
  | none => none
  | some tp =>
    match (s.procs tp).wait_list with
    | [] =>
      some (sched { s with ready_list := list_push_back s.ready_list tp } c, none)
    | p :: _ =>
      if PROC_EXISTS s p then
        let s1 := list_drop_pos s p
        some ({ s1 with ready_list := list_push_back s1.ready_list p }, some p)
      else none

/-- The loop of `exit`: while the wait collection of `p` is not empty its front
is dropped. The collection shrinks at every pass, so its length is enough
fuel. -/
def drain : Nat → Kernel → Nat → Option Kernel
  | 0, s, p => if (s.procs p).wait_list.isEmpty then some s else none
  | n + 1, s, p =>
    match (s.procs p).wait_list with
    | [] => some s
    | w :: _ => drain n (list_drop_pos s w) p

/-- The assertions of `proc_stat()`: every member of the ready queue exists,
every member of the zombie queue exists and has an empty wait collection. -/
def proc_stat (s : Kernel) : Bool :=
  s.ready_list.all (fun p => PROC_EXISTS s p) &&
    s.zombie_list.all (fun p => PROC_EXISTS s p && (s.procs p).wait_list.isEmpty)

/-- `exit()` on core `c`: the caller is checked, its waiters are dropped, it is
pushed on the zombie queue, `proc_stat` runs, and the core switches to its
scheduler. -/
def exit (s : Kernel) (c : Nat) : Option Kernel :=
  match thisproc s c with
  | none => none
  | some p =>
    if PROC_EXISTS s p then
      match drain (s.procs p).wait_list.length s p with
      | none => none
      | some s1 =>
        let s2 := { s1 with zombie_list := list_push_back s1.zombie_list p }
        if proc_stat s2 then some (sched s2 c) else none
    else none

/-! ## Steps and reachable states -/

/-- The members of `l` that are not in `Z`. -/
def list_without (l Z : List Nat) : List Nat := l.filter (fun x => !Z.contains x)

/-- The contract assumed of `kalloc(KSTKSIZE)` when it returns block `b`: the
block lies in the 32-bit address space, has room for the hack frame, and holds
no byte of a descriptor that is registered in the index. -/
def kalloc_ok (A : Arch) (s : Kernel) (b : Nat) : Prop :=
  sizeof_hackframe A ≤ A.KSTKSIZE ∧ b + A.KSTKSIZE ≤ 4294967296 ∧
    ∀ i, ∀ q ∈ s.hlist i, b + A.KSTKSIZE ≤ q ∨ q + sizeof_proc ≤ b

/-- The operations that change the process table, each with the core it runs
on and the values it receives from its collaborators. -/
inductive Event where
  | user_init (b pg : Nat) (img : ElfImage)
  | scheduler (c : Nat)
  | fork (c b pg : Nat)
  | wait (c p : Nat)
  | serve (c : Nat)
  | exit (c : Nat)

/-- When an operation can be taken: an allocation gets a block that satisfies
`kalloc_ok`; the scheduler loop runs on a core that runs no process; `wait` is
called by the process of the core. -/
def Event.guard (A : Arch) (s : Kernel) : Event → Prop
  | .user_init b _ _ => kalloc_ok A s b
  | .scheduler c => s.cpus c = none
  | .fork _ b _ => kalloc_ok A s b
  | .wait c _ => s.cpus c ≠ none
  | .serve _ => True
  | .exit _ => True

/-- The state after an operation, `none` when it panics. -/
def Event.next (A : Arch) (s : Kernel) : Event → Option Kernel
  | .user_init b pg img => Kern.user_init A s b pg img
  | .scheduler c => Kern.scheduler s c
  | .fork c b pg => (Kern.fork A s c b pg).map (fun r => r.1)
  | .wait c p => (Kern.wait A s c p).map (fun r => r.1)
  | .serve c => (Kern.serve s c).map (fun r => r.1)
  | .exit c => Kern.exit s c

/-- The descriptors returned by `proc_alloc` and not passed to `proc_free`
since, after an operation: an allocation adds its result, `wait` passes every
member of the zombie queue to `proc_free`. -/
def Event.live (A : Arch) (s : Kernel) (L : List Nat) : Event → List Nat
  | .user_init b _ _ => L ++ [proc_alloc_addr A b]
  | .fork _ b _ => L ++ [proc_alloc_addr A b]
  | .wait _ _ => list_without L s.zombie_list
  | _ => L

/-- The states reachable from `proc_init()` on a machine whose cores run no
process, each with the list of the descriptors allocated and not freed since. -/
inductive Reachable (A : Arch) : Kernel → List Nat → Prop where
  | boot (s0 : Kernel) (h : ∀ c, s0.cpus c = none) : Reachable A (proc_init s0) []
  | step (s : Kernel) (L : List Nat) (ev : Event) (s1 : Kernel)
      (h : Reachable A s L) (g : ev.guard A s) (e : ev.next A s = some s1) :
      Reachable A s1 (ev.live A s L)

/-! ## Invariant -/

/-- The invariant of the process table, for a state `s` and the list `L` of the
descriptors allocated and not freed. -/
structure Inv (s : Kernel) (L : List Nat) : Prop where
  hash_mem : ∀ i q, q ∈ s.hlist i → i = HASH q ∧ q ∈ L
  live_mem : ∀ q ∈ L, q ∈ s.hlist (HASH q) ∧ (s.procs q).magic = PROC_MAGIC
  live_sep : ∀ p ∈ L, ∀ q ∈ L, p = q ∨ p + sizeof_proc ≤ q ∨ q + sizeof_proc ≤ p
  ready_nodup : s.ready_list.Nodup
  zombie_nodup : s.zombie_list.Nodup
  wait_nodup : ∀ q ∈ L, (s.procs q).wait_list.Nodup
  ready_zombie : ∀ p ∈ s.ready_list, p ∉ s.zombie_list
  wait_queue : ∀ q ∈ L, ∀ w ∈ (s.procs q).wait_list, w ∉ s.ready_list ∧ w ∉ s.zombie_list
  wait_wait : ∀ q ∈ L, ∀ r ∈ L, ∀ w ∈ (s.procs q).wait_list, w ∈ (s.procs r).wait_list → q = r
  cur_out : ∀ c p, s.cpus c = some p →
    p ∉ s.ready_list ∧ p ∉ s.zombie_list ∧ ∀ q ∈ L, p ∉ (s.procs q).wait_list
  cur_inj : ∀ c d p, s.cpus c = some p → s.cpus d = some p → c = d
  ready_live : ∀ p ∈ s.ready_list, p ∈ L
  zombie_live : ∀ p ∈ s.zombie_list, p ∈ L
  wait_live : ∀ q ∈ L, ∀ w ∈ (s.procs q).wait_list, w ∈ L
  cur_live : ∀ c p, s.cpus c = some p → p ∈ L
  zombie_wait : ∀ z ∈ s.zombie_list, (s.procs z).wait_list = []

/-- A descriptor that is on no queue, on no wait collection of a live
descriptor, and is the process of no core. -/
def Detached (s : Kernel) (L : List Nat) (x : Nat) : Prop :=
  x ∉ s.ready_list ∧ x ∉ s.zombie_list ∧ (∀ q ∈ L, x ∉ (s.procs q).wait_list) ∧
    ∀ c, s.cpus c ≠ some x

/-! ## Runs -/

/-- `Steps A s L evs t M`: the operations `evs`, taken in this order from state
`s` with live descriptors `L`, each when its guard holds and none panicking, end
in state `t` with live descriptors `M`. -/
inductive Steps (A : Arch) : Kernel → List Nat → List Event → Kernel → List Nat → Prop where
  | refl (s : Kernel) (L : List Nat) : Steps A s L [] s L
  | cons (s : Kernel) (L : List Nat) (ev : Event) (t : Kernel) (evs : List Event)
      (u : Kernel) (M : List Nat) (g : ev.guard A s) (e : ev.next A s = some t)
      (h : Steps A t (ev.live A s L) evs u M) : Steps A s L (ev :: evs) u M

/-- A test of `kalloc_ok` against the list of live descriptors. -/
def kalloc_check (A : Arch) (L : List Nat) (b : Nat) : Bool :=
  decide (sizeof_hackframe A ≤ A.KSTKSIZE) && decide (b + A.KSTKSIZE ≤ 4294967296) &&
    L.all (fun q => decide (b + A.KSTKSIZE ≤ q) || decide (q + sizeof_proc ≤ b))

/-- A test of the guard of an event, given the list of live descriptors. -/
def Event.check (A : Arch) (s : Kernel) (L : List Nat) : Event → Bool
  | .user_init b _ _ => kalloc_check A L b
  | .scheduler c => (s.cpus c).isNone
  | .fork _ b _ => kalloc_check A L b
  | .wait c _ => (s.cpus c).isSome
  | .serve _ => true
  | .exit _ => true

/-- The state and the live descriptors after a list of events, `none` when a
guard fails or an operation panics. -/
def run (A : Arch) : Kernel → List Nat → List Event → Option (Kernel × List Nat)
  | s, L, [] => some (s, L)
  | s, L, ev :: evs =>
    if ev.check A s L then
      match ev.next A s with
      | none => none
      | some t => run A t (ev.live A s L) evs
    else none

/-! ## A concrete machine -/

/-- A configuration with 32 KiB kernel stacks and a 76-byte trap frame. -/
def arch0 : Arch :=
  { KSTKSIZE := 32768, sizeof_trapframe := 76, SEL_UDATA := 35, SEL_UCODE := 27,
    USTACKTOP := 4005552128, FL_IF := 512, ELF_MAGIC := 1179403647, ELF_PROG_LOAD := 1,
    KERNBASE := 4026531840 }

/-- Zeroed memory, no core running a process. -/
def mem0 : Kernel :=
  { hlist := fun _ => [], ready_list := [], zombie_list := [],
    procs := fun _ => ⟨0, 0, [], ⟨0, 0, 0, 0, 0, 0, 0, 0, 0, 0, 0, []⟩⟩,
    cpus := fun _ => none, kfreed := [] }

/-- A well-formed image without segments. -/
def img0 : ElfImage := ⟨1179403647, 8388640, []⟩

/-- The first block handed out by `kalloc` in the scenarios. -/
def blockA : Nat := 4030726144

/-- The second block handed out by `kalloc` in the scenarios. -/
def blockB : Nat := 4030758912

/-- The descriptor allocated in `blockA`. -/
def procA : Nat := 4030758868

/-- The descriptor allocated in `blockB`. -/
def procB : Nat := 4030791636

/-- Scenario A up to the call of `exit`: the first process A is created and
dispatched on core 0, forks B, waits for B; B is dispatched on core 0. -/
def scenarioA_events : List Event :=
  [.user_init blockA 1 img0, .scheduler 0, .fork 0 blockB 2, .wait 0 procB, .scheduler 0]

/-- The state in which B, the process of core 0, is about to call `exit` while A
is on its wait collection. -/
def scenarioA : Kernel × List Nat :=
  (run arch0 (proc_init mem0) [] scenarioA_events).getD (mem0, [])

/-- The third block handed out by `kalloc` in the scenarios. -/
def blockC : Nat := 4030791680

/-- The descriptor allocated in `blockC`. -/
def procC : Nat := 4030824404

/-- The state in which the first process A runs on core 0 and nothing else
exists. -/
def stateA : Kernel × List Nat :=
  (run arch0 (proc_init mem0) [] [.user_init blockA 1 img0, .scheduler 0]).getD (mem0, [])

/-- The events that lead to three running processes: A on core 0 forks B and C,
which are dispatched on cores 1 and 2. -/
def three_events : List Event :=
  [.user_init blockA 1 img0, .scheduler 0, .fork 0 blockB 2, .fork 0 blockC 3,
    .scheduler 1, .scheduler 2]

/-- The state in which A, B and C run on cores 0, 1 and 2. -/
def stateABC : Kernel × List Nat :=
  (run arch0 (proc_init mem0) [] three_events).getD (mem0, [])

/-- The state in which A runs on core 0 and B and C, having called `exit`, are
on the zombie queue. -/
def stateZ : Kernel × List Nat :=
  (run arch0 (proc_init mem0) [] (three_events ++ [.exit 1, .exit 2])).getD (mem0, [])

/-- The state `stateZ` after the reclamation loop of `wait`. -/
def stateZ_reaped : Kernel :=
  (reap arch0 stateZ.1.zombie_list.length stateZ.1).getD mem0

/-- The block handed out by `kalloc` for Z in the scenario of the reuse of an
address. It is disjoint from `blockA` and `blockB`, and it lies at the distance
from `blockB` at which `proc_free` of the descriptor built in it hands `blockB`
to `kfree`. -/
def blockZ : Nat := 4032166044

/-- The state in which A, B and Z run on cores 0, 1 and 2. -/
def stateABZ : Kernel × List Nat :=
  (run arch0 (proc_init mem0) []
    [.user_init blockA 1 img0, .scheduler 0, .fork 0 blockB 2, .fork 0 blockZ 3,
      .scheduler 1, .scheduler 2]).getD (mem0, [])

/-- The state `stateABZ` after B, on core 1, has called `exit`. -/
def stateABZ_exit : Kernel := (exit stateABZ.1 1).getD mem0

/-- The state after the first two of `realloc_events`, before the second fork. -/
def stateABZ_freed : Kernel × List Nat :=
  (run arch0 stateABZ_exit stateABZ.2 [.exit 2, .wait 0 procB]).getD (mem0, [])

/-- The descriptor that an event builds with `proc_alloc`, if it builds one. -/
def Event.allocates (A : Arch) : Event → Option Nat
  | .user_init b _ _ => some (proc_alloc_addr A b)
  | .fork _ b _ => some (proc_alloc_addr A b)
  | _ => none

/-- The calls of `proc_free` made by the first loop of `wait`, in order: the
state at each call and the zombie passed to it. The loop stops at the first
call that fails an assertion. -/
def reap_calls (A : Arch) : Nat → Kernel → List (Kernel × Nat)
  | 0, _ => []
  | n + 1, s =>
    match s.zombie_list with
    | [] => []
    | zp :: _ =>
      (list_drop_pos s zp, zp) ::
        (match proc_free A (list_drop_pos s zp) zp with
          | none => []
          | some s1 => reap_calls A n s1)

/-- The fourth block handed out by `kalloc` in the scenarios. -/
def blockD : Nat := 4030824448

/-- The descriptor allocated in `blockD`. -/
def procD : Nat := 4030857172

/-- The state in which A runs on core 0, B is on the wait collection of A, C is
on the zombie queue and D is on the ready queue. -/
def stateMix : Kernel × List Nat :=
  (run arch0 (proc_init mem0) []
    [.user_init blockA 1 img0, .scheduler 0, .fork 0 blockB 2, .fork 0 blockC 3,
      .scheduler 1, .wait 1 procA, .scheduler 1, .exit 1, .fork 0 blockD 4]).getD (mem0, [])

/-! # Theorems -/

/-! ## Basic facts on the list primitives -/

@[simp] theorem upd_same {β : Type} (f : Nat → β) (a : Nat) (v : β) : upd f a v a = v := by
  simp [upd]

theorem upd_other {β : Type} (f : Nat → β) (a : Nat) (v : β) (x : Nat) (h : x ≠ a) :
    upd f a v x = f x := by
  simp [upd, h]

@[simp] theorem mem_list_remove (l : List Nat) (x y : Nat) :
    y ∈ list_remove l x ↔ y ∈ l ∧ y ≠ x := by
  simp [list_remove]

@[simp] theorem mem_list_push_back (l : List Nat) (x y : Nat) :
    y ∈ list_push_back l x ↔ y ∈ l ∨ y = x := by
  simp [list_push_back]

theorem nodup_list_remove (l : List Nat) (x : Nat) (h : l.Nodup) : (list_remove l x).Nodup :=
  h.filter _

theorem nodup_list_push_back (l : List Nat) (x : Nat) (h : l.Nodup) (hx : x ∉ l) :
    (list_push_back l x).Nodup := by
  unfold list_push_back
  rw [List.nodup_append]
  refine ⟨h, List.nodup_singleton x, ?_⟩
  intro a ha hb
  simp at hb
  subst hb
  exact hx ha

theorem list_remove_of_not_mem (l : List Nat) (x : Nat) (h : x ∉ l) : list_remove l x = l := by
  unfold list_remove
  rw [List.filter_eq_self]
  intro a ha
  simp
  rintro rfl
  exact h ha

theorem list_remove_cons_self (l : List Nat) (x : Nat) (h : x ∉ l) :
    list_remove (x :: l) x = l := by
  have := list_remove_of_not_mem l x h
  simp [list_remove] at this ⊢
  exact this

theorem list_find_iff (l : List Nat) (off node : Nat) :
    list_find l off node = true ↔ ∃ q ∈ l, q + off = node := by
  simp [list_find]

theorem PROC_EXISTS_iff (s : Kernel) (p : Nat) :
    PROC_EXISTS s p = true ↔ p ∈ s.hlist (HASH p) ∧ (s.procs p).magic = PROC_MAGIC := by
  simp [PROC_EXISTS, list_find_iff]

/-- Under the invariant `PROC_EXISTS` holds exactly for the live descriptors. -/
theorem Inv.exists_iff {s : Kernel} {L : List Nat} (h : Inv s L) (p : Nat) :
    PROC_EXISTS s p = true ↔ p ∈ L := by
  rw [PROC_EXISTS_iff]
  constructor
  · intro hp
    exact (h.hash_mem _ _ hp.1).2
  · intro hp
    exact h.live_mem p hp


/-- Unlinking a position link preserves the invariant. -/
theorem Inv.drop_pos {s : Kernel} {L : List Nat} (h : Inv s L) (x : Nat) :
    Inv (list_drop_pos s x) L := by
  constructor <;> (try simp only [list_drop_pos, mem_list_remove])
  · exact h.hash_mem
  · exact h.live_mem
  · exact h.live_sep
  · exact nodup_list_remove _ _ h.ready_nodup
  · exact nodup_list_remove _ _ h.zombie_nodup
  · exact fun q hq => nodup_list_remove _ _ (h.wait_nodup q hq)
  · exact fun q hq => by simp [h.ready_zombie q hq.1]
  · intro q hq w hw
    have := h.wait_queue q hq w hw.1
    simp [this]
  · intro q hq r hr w hw hw2
    exact h.wait_wait q hq r hr w hw.1 hw2.1
  · intro d y hy
    have := h.cur_out d y hy
    simp [this]
    intro q hq hw
    exact absurd hw (this.2.2 q hq)
  · exact h.cur_inj
  · exact fun q hq => h.ready_live q hq.1
  · exact fun q hq => h.zombie_live q hq.1
  · exact fun q hq w hw => h.wait_live q hq w hw.1
  · exact h.cur_live
  · intro z hz
    simp [h.zombie_wait z hz.1, list_remove]

theorem Detached.after_drop {s : Kernel} {L : List Nat} (x : Nat)
    (hc : ∀ c, s.cpus c ≠ some x) : Detached (list_drop_pos s x) L x := by
  refine ⟨?_, ?_, ?_, hc⟩ <;> simp [list_drop_pos]

theorem Inv.not_cur_of_ready {s : Kernel} {L : List Nat} (h : Inv s L) (x : Nat)
    (hx : x ∈ s.ready_list) (c : Nat) : s.cpus c ≠ some x :=
  fun hc => (h.cur_out c x hc).1 hx

theorem Inv.not_cur_of_zombie {s : Kernel} {L : List Nat} (h : Inv s L) (x : Nat)
    (hx : x ∈ s.zombie_list) (c : Nat) : s.cpus c ≠ some x :=
  fun hc => (h.cur_out c x hc).2.1 hx

theorem Inv.not_cur_of_wait {s : Kernel} {L : List Nat} (h : Inv s L) (x q : Nat)
    (hq : q ∈ L) (hx : x ∈ (s.procs q).wait_list) (c : Nat) : s.cpus c ≠ some x :=
  fun hc => (h.cur_out c x hc).2.2 q hq hx

/-- The switch to the scheduler preserves the invariant. -/
theorem Inv.clear_cur {s : Kernel} {L : List Nat} (h : Inv s L) (c : Nat) :
    Inv (sched s c) L := by
  have key : ∀ d x, (sched s c).cpus d = some x → s.cpus d = some x := by
    intro d x hx
    by_cases hd : d = c
    · subst hd
      simp [sched] at hx
    · simpa [sched, upd_other _ _ _ _ hd] using hx
  exact { h with
    cur_out := fun d x hx => h.cur_out d x (key d x hx)
    cur_inj := fun d e x hd he => h.cur_inj d e x (key d x hd) (key e x he)
    cur_live := fun d x hx => h.cur_live d x (key d x hx) }

theorem Detached.after_clear {s : Kernel} {L : List Nat} (h : Inv s L) (c x : Nat)
    (hx : s.cpus c = some x) : Detached (sched s c) L x := by
  obtain ⟨h1, h2, h3⟩ := h.cur_out c x hx
  refine ⟨h1, h2, h3, ?_⟩
  intro d hd
  by_cases hdc : d = c
  · subst hdc
    simp [sched] at hd
  · simp [sched, upd_other _ _ _ _ hdc] at hd
    exact hdc (h.cur_inj d c x hd hx)

/-- A detached live descriptor can become the process of a core. -/
theorem Inv.set_cur {s : Kernel} {L : List Nat} (h : Inv s L) (c x : Nat)
    (hx : x ∈ L) (hd : Detached s L x) :
    Inv { s with cpus := upd s.cpus c (some x) } L := by
  obtain ⟨h1, h2, h3, h4⟩ := hd
  have key : ∀ d y, upd s.cpus c (some x) d = some y → (d = c ∧ y = x) ∨ s.cpus d = some y := by
    intro d y hy
    by_cases hd : d = c
    · subst hd
      simp at hy
      exact Or.inl ⟨rfl, hy.symm⟩
    · rw [upd_other _ _ _ _ hd] at hy
      exact Or.inr hy
  exact { h with
    cur_out := by
      intro d y hy
      rcases key d y hy with ⟨-, rfl⟩ | hy
      · exact ⟨h1, h2, h3⟩
      · exact h.cur_out d y hy
    cur_inj := by
      intro d e y hd he
      rcases key d y hd with ⟨h5, h6⟩ | h5 <;> rcases key e y he with ⟨h7, h8⟩ | h7
      · rw [h5, h7]
      · rw [h6] at h7
        exact absurd h7 (h4 e)
      · rw [h8] at h5
        exact absurd h5 (h4 d)
      · exact h.cur_inj d e y h5 h7
    cur_live := by
      intro d y hy
      rcases key d y hy with ⟨-, rfl⟩ | hy
      · exact hx
      · exact h.cur_live d y hy }

/-- A detached live descriptor can be admitted to the ready queue. -/
theorem Inv.push_ready {s : Kernel} {L : List Nat} (h : Inv s L) (x : Nat)
    (hx : x ∈ L) (hd : Detached s L x) :
    Inv { s with ready_list := list_push_back s.ready_list x } L := by
  obtain ⟨h1, h2, h3, h4⟩ := hd
  exact { h with
    ready_nodup := nodup_list_push_back _ _ h.ready_nodup h1
    ready_zombie := by
      intro p hp
      rcases (mem_list_push_back _ _ _).1 hp with hp | rfl
      · exact h.ready_zombie p hp
      · exact h2
    wait_queue := by
      intro q hq w hw
      refine ⟨?_, (h.wait_queue q hq w hw).2⟩
      intro hp
      rcases (mem_list_push_back _ _ _).1 hp with hp | rfl
      · exact (h.wait_queue q hq w hw).1 hp
      · exact h3 q hq hw
    cur_out := by
      intro c p hp
      obtain ⟨a, b, d⟩ := h.cur_out c p hp
      refine ⟨?_, b, d⟩
      intro hp2
      rcases (mem_list_push_back _ _ _).1 hp2 with hp2 | rfl
      · exact a hp2
      · exact h4 c hp
    ready_live := by
      intro p hp
      rcases (mem_list_push_back _ _ _).1 hp with hp | rfl
      · exact h.ready_live p hp
      · exact hx }

/-- A detached live descriptor with no waiter can be pushed on the zombie queue. -/
theorem Inv.push_zombie {s : Kernel} {L : List Nat} (h : Inv s L) (x : Nat)
    (hx : x ∈ L) (hd : Detached s L x) (hw : (s.procs x).wait_list = []) :
    Inv { s with zombie_list := list_push_back s.zombie_list x } L := by
  obtain ⟨h1, h2, h3, h4⟩ := hd
  exact { h with
    zombie_nodup := nodup_list_push_back _ _ h.zombie_nodup h2
    ready_zombie := by
      intro p hp hp2
      rcases (mem_list_push_back _ _ _).1 hp2 with hp2 | rfl
      · exact h.ready_zombie p hp hp2
      · exact h1 hp
    wait_queue := by
      intro q hq w hw
      refine ⟨(h.wait_queue q hq w hw).1, ?_⟩
      intro hp
      rcases (mem_list_push_back _ _ _).1 hp with hp | rfl
      · exact (h.wait_queue q hq w hw).2 hp
      · exact h3 q hq hw
    cur_out := by
      intro c p hp
      obtain ⟨a, b, d⟩ := h.cur_out c p hp
      refine ⟨a, ?_, d⟩
      intro hp2
      rcases (mem_list_push_back _ _ _).1 hp2 with hp2 | rfl
      · exact b hp2
      · exact h4 c hp
    zombie_live := by
      intro p hp
      rcases (mem_list_push_back _ _ _).1 hp with hp | rfl
      · exact h.zombie_live p hp
      · exact hx
    zombie_wait := by
      intro p hp
      rcases (mem_list_push_back _ _ _).1 hp with hp | rfl
      · exact h.zombie_wait p hp
      · exact hw }

/-- The invariant only reads the containers, the core records, and the wait
collection and tag of each descriptor. -/
theorem Inv.congr {s t : Kernel} {L : List Nat} (h : Inv s L)
    (e1 : t.hlist = s.hlist) (e2 : t.ready_list = s.ready_list)
    (e3 : t.zombie_list = s.zombie_list) (e4 : t.cpus = s.cpus)
    (e5 : ∀ q, (t.procs q).wait_list = (s.procs q).wait_list)
    (e6 : ∀ q, (t.procs q).magic = (s.procs q).magic) : Inv t L := by
  constructor <;> (try simp only [e1, e2, e3, e4, e5, e6])
  · exact h.hash_mem
  · exact h.live_mem
  · exact h.live_sep
  · exact h.ready_nodup
  · exact h.zombie_nodup
  · exact h.wait_nodup
  · exact h.ready_zombie
  · exact h.wait_queue
  · exact h.wait_wait
  · exact h.cur_out
  · exact h.cur_inj
  · exact h.ready_live
  · exact h.zombie_live
  · exact h.wait_live
  · exact h.cur_live
  · exact h.zombie_wait

theorem Inv.detached_of_not_live {s : Kernel} {L : List Nat} (h : Inv s L) (x : Nat)
    (hx : x ∉ L) : Detached s L x :=
  ⟨fun a => hx (h.ready_live x a), fun a => hx (h.zombie_live x a),
    fun q hq a => hx (h.wait_live q hq x a), fun c a => hx (h.cur_live c x a)⟩

/-- A detached live descriptor can be pushed on the wait collection of a live
descriptor that is not a zombie. -/
theorem Inv.push_wait {s : Kernel} {L : List Nat} (h : Inv s L) (T x : Nat)
    (hT : T ∈ L) (hTz : T ∉ s.zombie_list) (hx : x ∈ L) (hd : Detached s L x) :
    Inv { s with
      procs := upd s.procs T
        { s.procs T with wait_list := list_push_back (s.procs T).wait_list x } } L := by
  obtain ⟨h1, h2, h3, h4⟩ := hd
  have wl : ∀ q w, w ∈ (upd s.procs T
      { s.procs T with wait_list := list_push_back (s.procs T).wait_list x } q).wait_list →
      w ∈ (s.procs q).wait_list ∨ (q = T ∧ w = x) := by
    intro q w hw
    by_cases hq : q = T
    · subst hq
      simp at hw
      rcases hw with hw | hw
      · exact Or.inl hw
      · exact Or.inr ⟨rfl, hw⟩
    · rw [upd_other _ _ _ _ hq] at hw
      exact Or.inl hw
  constructor <;> (try dsimp only)
  · exact h.hash_mem
  · intro q hq
    refine ⟨(h.live_mem q hq).1, ?_⟩
    by_cases hqT : q = T
    · subst hqT
      simpa using (h.live_mem q hq).2
    · simpa [upd_other _ _ _ _ hqT] using (h.live_mem q hq).2
  · exact h.live_sep
  · exact h.ready_nodup
  · exact h.zombie_nodup
  · intro q hq
    by_cases hqT : q = T
    · subst hqT
      simpa using nodup_list_push_back _ _ (h.wait_nodup q hq) (h3 q hq)
    · simpa [upd_other _ _ _ _ hqT] using h.wait_nodup q hq
  · exact h.ready_zombie
  · intro q hq w hw
    rcases wl q w hw with hw | ⟨-, rfl⟩
    · exact h.wait_queue q hq w hw
    · exact ⟨h1, h2⟩
  · intro q hq r hr w hw hw2
    rcases wl q w hw with hw | ⟨rfl, rfl⟩ <;> rcases wl r w hw2 with hw2 | ⟨h5, h6⟩
    · exact h.wait_wait q hq r hr w hw hw2
    · rw [h6] at hw
      exact absurd hw (h3 q hq)
    · exact absurd hw2 (h3 r hr)
    · exact h5.symm
  · intro c p hp
    obtain ⟨a, b, d⟩ := h.cur_out c p hp
    refine ⟨a, b, ?_⟩
    intro q hq hw
    rcases wl q p hw with hw | ⟨-, rfl⟩
    · exact d q hq hw
    · exact h4 c hp
  · exact h.cur_inj
  · exact h.ready_live
  · exact h.zombie_live
  · intro q hq w hw
    rcases wl q w hw with hw | ⟨-, rfl⟩
    · exact h.wait_live q hq w hw
    · exact hx
  · exact h.cur_live
  · intro z hz
    have hzT : z ≠ T := fun e => hTz (e ▸ hz)
    simpa [upd_other _ _ _ _ hzT] using h.zombie_wait z hz

/-- Registering a descriptor that does not overlap a live one preserves the
invariant, with the new descriptor live. -/
theorem Inv.alloc {s : Kernel} {L : List Nat} (h : Inv s L) (p : Nat) (v : proc)
    (hp : p ∉ L) (hsep : ∀ q ∈ L, p + sizeof_proc ≤ q ∨ q + sizeof_proc ≤ p)
    (hv1 : v.wait_list = []) (hv2 : v.magic = PROC_MAGIC) :
    Inv { s with
      hlist := upd s.hlist (HASH p) (list_push_back (s.hlist (HASH p)) p)
      procs := upd s.procs p v } (L ++ [p]) := by
  have hd := h.detached_of_not_live p hp
  obtain ⟨h1, h2, h3, h4⟩ := hd
  have ne_of_live : ∀ q ∈ L, q ≠ p := fun q hq e => hp (e ▸ hq)
  have wl : ∀ q ∈ L, (upd s.procs p v q) = s.procs q := fun q hq =>
    upd_other _ _ _ _ (ne_of_live q hq)
  have live : ∀ q, q ∈ L ++ [p] → q ∈ L ∨ q = p := by
    intro q hq
    simpa using hq
  constructor <;> (try dsimp only)
  · intro i q hq
    by_cases hi : i = HASH p
    · subst hi
      simp at hq
      rcases hq with hq | rfl
      · have := h.hash_mem _ q hq
        exact ⟨this.1, by simp [this.2]⟩
      · simp
    · rw [upd_other _ _ _ _ hi] at hq
      have := h.hash_mem _ q hq
      exact ⟨this.1, by simp [this.2]⟩
  · intro q hq
    rcases live q hq with hq | rfl
    · rw [wl q hq]
      refine ⟨?_, (h.live_mem q hq).2⟩
      by_cases hi : HASH q = HASH p
      · rw [hi]
        simp
        left
        rw [← hi]
        exact (h.live_mem q hq).1
      · rw [upd_other _ _ _ _ hi]
        exact (h.live_mem q hq).1
    · simp [hv2]
  · intro a ha b hb
    rcases live a ha with ha1 | ha1 <;> rcases live b hb with hb1 | hb1
    · exact h.live_sep a ha1 b hb1
    · rw [hb1]
      rcases hsep a ha1 with e | e
      · exact Or.inr (Or.inr e)
      · exact Or.inr (Or.inl e)
    · rw [ha1]
      exact Or.inr (hsep b hb1)
    · rw [ha1, hb1]
      exact Or.inl rfl
  · exact h.ready_nodup
  · exact h.zombie_nodup
  · intro q hq
    rcases live q hq with hq | rfl
    · rw [wl q hq]
      exact h.wait_nodup q hq
    · simp [hv1]
  · exact h.ready_zombie
  · intro q hq w hw
    rcases live q hq with hq | rfl
    · rw [wl q hq] at hw
      exact h.wait_queue q hq w hw
    · simp [hv1] at hw
  · intro q hq r hr w hw hw2
    rcases live q hq with hq | rfl
    · rcases live r hr with hr | rfl
      · rw [wl q hq] at hw
        rw [wl r hr] at hw2
        exact h.wait_wait q hq r hr w hw hw2
      · simp [hv1] at hw2
    · simp [hv1] at hw
  · intro c x hx
    obtain ⟨a, b, d⟩ := h.cur_out c x hx
    refine ⟨a, b, ?_⟩
    intro q hq hw
    rcases live q hq with hq | rfl
    · rw [wl q hq] at hw
      exact d q hq hw
    · simp [hv1] at hw
  · exact h.cur_inj
  · intro x hx
    simp [h.ready_live x hx]
  · intro x hx
    simp [h.zombie_live x hx]
  · intro q hq w hw
    rcases live q hq with hq | rfl
    · rw [wl q hq] at hw
      simp [h.wait_live q hq w hw]
    · simp [hv1] at hw
  · intro c x hx
    simp [h.cur_live c x hx]
  · intro z hz
    rw [wl z (h.zombie_live z hz)]
    exact h.zombie_wait z hz

/-- Dropping the index link of a detached descriptor preserves the invariant,
with the descriptor no longer live. -/
theorem Inv.free {s : Kernel} {L : List Nat} (h : Inv s L) (z : Nat) (k : List Nat)
    (hd : Detached s L z) :
    Inv { list_drop_hlist s z with kfreed := k } (list_remove L z) := by
  obtain ⟨h1, h2, h3, h4⟩ := hd
  constructor <;> (try simp only [list_drop_hlist, mem_list_remove])
  · intro i q hq
    have := h.hash_mem i q hq.1
    exact ⟨this.1, this.2, hq.2⟩
  · intro q hq
    exact ⟨⟨(h.live_mem q hq.1).1, hq.2⟩, (h.live_mem q hq.1).2⟩
  · exact fun a ha b hb => h.live_sep a ha.1 b hb.1
  · exact h.ready_nodup
  · exact h.zombie_nodup
  · exact fun q hq => h.wait_nodup q hq.1
  · exact h.ready_zombie
  · exact fun q hq => h.wait_queue q hq.1
  · exact fun q hq r hr => h.wait_wait q hq.1 r hr.1
  · intro c x hx
    obtain ⟨a, b, d⟩ := h.cur_out c x hx
    exact ⟨a, b, fun q hq => d q hq.1⟩
  · exact h.cur_inj
  · exact fun x hx => ⟨h.ready_live x hx, fun e => h1 (e ▸ hx)⟩
  · exact fun x hx => ⟨h.zombie_live x hx, fun e => h2 (e ▸ hx)⟩
  · exact fun q hq w hw => ⟨h.wait_live q hq.1 w hw, fun e => h3 q hq.1 (e ▸ hw)⟩
  · exact fun c x hx => ⟨h.cur_live c x hx, fun e => h4 c (e ▸ hx)⟩
  · exact h.zombie_wait

/-! ## The operations preserve the invariant -/

/-- The descriptor lies at the top of its block. -/
theorem proc_alloc_addr_add (A : Arch) (b : Nat) (h1 : sizeof_hackframe A ≤ A.KSTKSIZE)
    (h2 : b + A.KSTKSIZE ≤ 4294967296) :
    proc_alloc_addr A b + sizeof_proc = b + A.KSTKSIZE := by
  simp only [proc_alloc_addr, sizeof_hackframe, sizeof_context, sizeof_proc,
    sizeof_list_head] at *
  omega

/-- A block that satisfies the contract of `kalloc` yields a descriptor that is
not live and overlaps no live descriptor. -/
theorem kalloc_ok_fresh {A : Arch} {s : Kernel} {L : List Nat} {b : Nat} (h : Inv s L)
    (g : kalloc_ok A s b) :
    proc_alloc_addr A b ∉ L ∧
      ∀ q ∈ L, proc_alloc_addr A b + sizeof_proc ≤ q ∨ q + sizeof_proc ≤ proc_alloc_addr A b := by
  obtain ⟨g1, g2, g3⟩ := g
  have e := proc_alloc_addr_add A b g1 g2
  have sep : ∀ q ∈ L, proc_alloc_addr A b + sizeof_proc ≤ q ∨
      q + sizeof_proc ≤ proc_alloc_addr A b := by
    intro q hq
    have := g3 _ q (h.live_mem q hq).1
    unfold sizeof_hackframe sizeof_context sizeof_proc sizeof_list_head at *
    omega
  refine ⟨?_, sep⟩
  intro hp
  have := sep _ hp
  unfold sizeof_proc sizeof_list_head at this
  omega

theorem Inv.alloc_admit {s : Kernel} {L : List Nat} (h : Inv s L) (p : Nat) (v : proc)
    (hp : p ∉ L) (hsep : ∀ q ∈ L, p + sizeof_proc ≤ q ∨ q + sizeof_proc ≤ p)
    (hv1 : v.wait_list = []) (hv2 : v.magic = PROC_MAGIC) :
    Inv { s with
      hlist := upd s.hlist (HASH p) (list_push_back (s.hlist (HASH p)) p)
      procs := upd s.procs p v
      ready_list := list_push_back s.ready_list p } (L ++ [p]) := by
  have h1 := h.alloc p v hp hsep hv1 hv2
  refine h1.push_ready p (by simp) ?_
  obtain ⟨a1, a2, a3, a4⟩ := h.detached_of_not_live _ hp
  refine ⟨a1, a2, ?_, a4⟩
  intro q hq
  by_cases hqp : q = p
  · subst hqp
    simp [hv1]
  · have hqL : q ∈ L := by simpa [hqp] using hq
    dsimp only
    rw [upd_other _ _ _ _ hqp]
    exact a3 q hqL

theorem Inv.step_scheduler {s s1 : Kernel} {L : List Nat} {c : Nat} (h : Inv s L)
    (e : scheduler s c = some s1) : Inv s1 L := by
  unfold scheduler at e
  split at e
  · cases e
    exact h
  · rename_i p r hr
    have hp : p ∈ s.ready_list := by simp [hr]
    dsimp only at e
    split at e
    · cases e
      exact (h.drop_pos p).set_cur c p (h.ready_live p hp)
        (Detached.after_drop p (h.not_cur_of_ready p hp))
    · cases e

/-- The dispatch of the head of the ready queue never fails its assertion. -/
theorem scheduler_eq {s : Kernel} {L : List Nat} (h : Inv s L) (c p : Nat) (r : List Nat)
    (hr : s.ready_list = p :: r) :
    scheduler s c = some { list_drop_pos s p with cpus := upd s.cpus c (some p) } := by
  have hp : p ∈ s.ready_list := by simp [hr]
  unfold scheduler
  rw [hr]
  simp only
  rw [if_pos ((h.drop_pos p).exists_iff p |>.2 (h.ready_live p hp))]
  rfl

theorem Inv.step_serve {s s1 : Kernel} {L : List Nat} {c : Nat} {r : Option Nat} (h : Inv s L)
    (e : serve s c = some (s1, r)) : Inv s1 L := by
  unfold serve thisproc at e
  split at e
  · cases e
  · rename_i tp htp
    split at e
    · cases e
      exact (h.clear_cur c).push_ready tp (h.cur_live c tp htp) (Detached.after_clear h c tp htp)
    · rename_i w ws hw
      have hw1 : w ∈ (s.procs tp).wait_list := by simp [hw]
      have htpL := h.cur_live c tp htp
      dsimp only at e
      split at e
      · cases e
        exact (h.drop_pos w).push_ready w (h.wait_live tp htpL w hw1)
          (Detached.after_drop w (h.not_cur_of_wait w tp htpL hw1))
      · cases e

theorem Inv.step_fork {A : Arch} {s s1 : Kernel} {L : List Nat} {c b pg : Nat} {r : Int}
    (h : Inv s L) (g : kalloc_ok A s b) (e : fork A s c b pg = some (s1, r)) :
    Inv s1 (L ++ [proc_alloc_addr A b]) := by
  obtain ⟨hp, hsep⟩ := kalloc_ok_fresh h g
  unfold fork thisproc at e
  split at e
  · cases e
  · rename_i tp htp
    simp only [Option.some.injEq, Prod.mk.injEq] at e
    obtain ⟨e, -⟩ := e
    subst e
    have h2 := h.alloc_admit (proc_alloc_addr A b)
      { s.procs (proc_alloc_addr A b) with magic := PROC_MAGIC, wait_list := [] } hp hsep rfl rfl
    refine h2.congr rfl rfl rfl rfl ?_ ?_ <;> intro q <;>
      by_cases hqp : q = proc_alloc_addr A b <;> simp [proc_alloc, upd, hqp]

theorem Inv.step_user_init {A : Arch} {s s1 : Kernel} {L : List Nat} {b pg : Nat} {img : ElfImage}
    (h : Inv s L) (g : kalloc_ok A s b) (e : user_init A s b pg img = some s1) :
    Inv s1 (L ++ [proc_alloc_addr A b]) := by
  obtain ⟨hp, hsep⟩ := kalloc_ok_fresh h g
  unfold user_init ucode_load at e
  simp only [Option.map_eq_some'] at e
  obtain ⟨s2, e2, e⟩ := e
  subst e
  split at e2
  · split at e2
    · cases e2
      have h2 := h.alloc_admit (proc_alloc_addr A b)
        { s.procs (proc_alloc_addr A b) with magic := PROC_MAGIC, wait_list := [] }
        hp hsep rfl rfl
      refine h2.congr rfl rfl rfl rfl ?_ ?_ <;> intro q <;>
        by_cases hqp : q = proc_alloc_addr A b <;> simp [proc_alloc, upd, hqp]
    · cases e2
  · cases e2

theorem list_without_nil (l : List Nat) : list_without l [] = l := by
  simp [list_without]

theorem mem_list_without (l Z : List Nat) (x : Nat) :
    x ∈ list_without l Z ↔ x ∈ l ∧ x ∉ Z := by
  simp [list_without]

theorem list_without_cons (l r : List Nat) (z : Nat) :
    list_without (list_remove l z) r = list_without l (z :: r) := by
  simp only [list_without, list_remove, List.filter_filter]
  congr 1
  funext x
  by_cases hx : x = z
  · simp [hx]
  · simp [List.contains_cons, hx]

theorem list_without_of_disjoint (l Z : List Nat) (h : ∀ x ∈ l, x ∉ Z) :
    list_without l Z = l := by
  unfold list_without
  rw [List.filter_eq_self]
  intro a ha
  simpa using h a ha

/-- On a live descriptor without waiters `proc_free` passes all its assertions. -/
theorem proc_free_eq (A : Arch) {s : Kernel} {L : List Nat} (h : Inv s L) (z : Nat)
    (hz : z ∈ L) (hw : (s.procs z).wait_list = []) :
    proc_free A s z =
      some { list_drop_hlist s z with kfreed := s.kfreed ++ [kfree_arg A z] } := by
  have sep : ∀ l : List Nat, (∀ q ∈ l, q ∈ L) → list_find l OFF_pos (z + OFF_hlist) = false := by
    intro l hl
    rw [Bool.eq_false_iff]
    intro hf
    obtain ⟨q, hq, e⟩ := (list_find_iff _ _ _).1 hf
    have := h.live_sep z hz q (hl q hq)
    unfold OFF_pos OFF_hlist sizeof_list_head at e
    unfold sizeof_proc sizeof_list_head at this
    omega
  have e1 : list_find ((list_drop_hlist s z).hlist (HASH z)) OFF_hlist (z + OFF_hlist) = false := by
    rw [Bool.eq_false_iff]
    intro hf
    obtain ⟨q, hq, e⟩ := (list_find_iff _ _ _).1 hf
    simp only [list_drop_hlist, mem_list_remove] at hq
    exact hq.2 (by omega)
  unfold proc_free
  rw [if_pos ((h.exists_iff z).2 hz)]
  simp only [e1, Bool.false_eq_true, if_false]
  have e2 := sep s.ready_list h.ready_live
  have e3 := sep s.zombie_list h.zombie_live
  simp only [list_drop_hlist] at *
  simp [e2, e3, hw]

/-- The reclamation loop of `wait` terminates within the length of the zombie
queue, passes every assertion, and removes the zombies from every container. -/
theorem reap_spec (A : Arch) : ∀ (n : Nat) (s : Kernel) (L : List Nat), Inv s L →
    s.zombie_list.length ≤ n →
    ∃ s1, reap A n s = some s1 ∧ Inv s1 (list_without L s.zombie_list) ∧
      s1.zombie_list = [] ∧
      s1.ready_list = list_without s.ready_list s.zombie_list ∧
      s1.cpus = s.cpus ∧
      (∀ q, s1.procs q =
        { s.procs q with wait_list := list_without (s.procs q).wait_list s.zombie_list }) ∧
      (∀ i, s1.hlist i = list_without (s.hlist i) s.zombie_list) ∧
      s1.kfreed = s.kfreed ++ s.zombie_list.map (kfree_arg A) := by
  intro n
  induction n with
  | zero =>
    intro s L h hn
    have hz : s.zombie_list = [] := List.length_eq_zero.1 (Nat.le_zero.1 hn)
    refine ⟨s, ?_, ?_, hz, ?_, rfl, ?_, ?_, ?_⟩
    · simp [reap, hz]
    · simpa [hz, list_without_nil] using h
    · simp [hz, list_without_nil]
    · intro q
      simp [hz, list_without_nil]
    · intro i
      simp [hz, list_without_nil]
    · simp [hz]
  | succ n ih =>
    intro s L h hn
    cases hz : s.zombie_list with
    | nil =>
      refine ⟨s, ?_, ?_, hz, ?_, rfl, ?_, ?_, ?_⟩
      · simp [reap, hz]
      · simpa [hz, list_without_nil] using h
      · simp [list_without_nil]
      · intro q
        simp [list_without_nil]
      · intro i
        simp [list_without_nil]
      · simp
    | cons z r =>
      have hzm : z ∈ s.zombie_list := by simp [hz]
      have hzr : z ∉ r := by
        have := h.zombie_nodup
        rw [hz] at this
        exact (List.nodup_cons.1 this).1
      have hzL := h.zombie_live z hzm
      have h1 := h.drop_pos z
      have hd : Detached (list_drop_pos s z) L z :=
        Detached.after_drop z (h.not_cur_of_zombie z hzm)
      have hw : ((list_drop_pos s z).procs z).wait_list = [] := by
        simp [list_drop_pos, h.zombie_wait z hzm, list_remove]
      have e := proc_free_eq A h1 z hzL hw
      have h2 := h1.free z ((list_drop_pos s z).kfreed ++ [kfree_arg A z]) hd
      have hz2 : (list_drop_pos s z).zombie_list = r := by
        simp only [list_drop_pos, hz]
        exact list_remove_cons_self r z hzr
      obtain ⟨s1, r1, r2, r3, r4, r5, r6, r7, r8⟩ := ih _ _ h2 (by
        simp only [list_drop_hlist]
        rw [hz2]
        rw [hz] at hn
        simpa using hn)
      simp only [list_drop_hlist] at r1 r2 r3 r4 r5 r6 r7 r8
      rw [hz2] at r2 r4 r6 r7 r8
      refine ⟨s1, ?_, ?_, r3, ?_, r5, ?_, ?_, ?_⟩
      · simp only [reap, hz]
        rw [e]
        exact r1
      · rw [← list_without_cons]
        exact r2
      · rw [r4, ← list_without_cons]
        rfl
      · intro q
        rw [r6 q, ← list_without_cons]
        rfl
      · intro i
        rw [r7 i, ← list_without_cons]
        rfl
      · rw [r8]
        simp [list_drop_pos]

/-- The reclamation loop of `wait` on a state that satisfies the invariant. -/
theorem reap_inv (A : Arch) {s : Kernel} {L : List Nat} (h : Inv s L) :
    ∃ s1, reap A s.zombie_list.length s = some s1 ∧ Inv s1 (list_without L s.zombie_list) ∧
      s1.zombie_list = [] ∧ s1.ready_list = s.ready_list ∧ s1.cpus = s.cpus ∧
      (∀ q ∈ L, (s1.procs q).wait_list = (s.procs q).wait_list) ∧
      (∀ q, (s1.procs q).magic = (s.procs q).magic ∧ (s1.procs q).tf = (s.procs q).tf ∧
        (s1.procs q).pgdir = (s.procs q).pgdir) ∧
      (∀ i, s1.hlist i = list_without (s.hlist i) s.zombie_list) ∧
      s1.kfreed = s.kfreed ++ s.zombie_list.map (kfree_arg A) := by
  obtain ⟨s1, r1, r2, r3, r4, r5, r6, r7, r8⟩ := reap_spec A _ s L h (le_refl _)
  refine ⟨s1, r1, r2, r3, ?_, r5, ?_, ?_, r7, r8⟩
  · rw [r4]
    exact list_without_of_disjoint _ _ h.ready_zombie
  · intro q hq
    rw [r6 q]
    exact list_without_of_disjoint _ _ (fun w hw => (h.wait_queue q hq w hw).2)
  · intro q
    rw [r6 q]
    exact ⟨rfl, rfl, rfl⟩

theorem Inv.step_wait {A : Arch} {s s1 : Kernel} {L : List Nat} {c p : Nat} {r : Option Int}
    (h : Inv s L) (e : wait A s c p = some (s1, r)) :
    Inv s1 (list_without L s.zombie_list) := by
  obtain ⟨s0, r1, r2, r3, -⟩ := reap_inv A h
  unfold wait thisproc at e
  rw [r1] at e
  dsimp only at e
  split at e
  · rename_i hp
    split at e
    · cases e
    · rename_i tp htp
      simp only [Option.some.injEq, Prod.mk.injEq] at e
      obtain ⟨e, -⟩ := e
      subst e
      have hpL := (r2.exists_iff p).1 hp
      exact (r2.clear_cur c).push_wait p tp hpL (by simp [sched, r3]) (r2.cur_live c tp htp)
        (Detached.after_clear r2 c tp htp)
  · simp only [Option.some.injEq, Prod.mk.injEq] at e
    obtain ⟨e, -⟩ := e
    subst e
    exact r2

/-- The loop of `exit` terminates within the length of the wait collection and
only empties that collection. -/
theorem drain_spec : ∀ (n : Nat) (s : Kernel) (L : List Nat) (p : Nat), Inv s L → p ∈ L →
    (s.procs p).wait_list.length ≤ n →
    ∃ s1, drain n s p = some s1 ∧ Inv s1 L ∧ (s1.procs p).wait_list = [] ∧
      s1.ready_list = s.ready_list ∧ s1.zombie_list = s.zombie_list ∧ s1.cpus = s.cpus ∧
      s1.hlist = s.hlist ∧ s1.kfreed = s.kfreed ∧
      (∀ q ∈ L, q ≠ p → (s1.procs q).wait_list = (s.procs q).wait_list) ∧
      (∀ q, (s1.procs q).magic = (s.procs q).magic ∧ (s1.procs q).tf = (s.procs q).tf ∧
        (s1.procs q).pgdir = (s.procs q).pgdir) := by
  intro n
  induction n with
  | zero =>
    intro s L p h _ hn
    have hz : (s.procs p).wait_list = [] := List.length_eq_zero.1 (Nat.le_zero.1 hn)
    exact ⟨s, by simp [drain, hz], h, hz, rfl, rfl, rfl, rfl, rfl, fun _ _ _ => rfl,
      fun _ => ⟨rfl, rfl, rfl⟩⟩
  | succ n ih =>
    intro s L p h hp hn
    cases hz : (s.procs p).wait_list with
    | nil =>
      exact ⟨s, by simp [drain, hz], h, hz, rfl, rfl, rfl, rfl, rfl, fun _ _ _ => rfl,
        fun _ => ⟨rfl, rfl, rfl⟩⟩
    | cons w ws =>
      have hwm : w ∈ (s.procs p).wait_list := by simp [hz]
      have hws : w ∉ ws := by
        have := h.wait_nodup p hp
        rw [hz] at this
        exact (List.nodup_cons.1 this).1
      have hq := h.wait_queue p hp w hwm
      have e1 : ((list_drop_pos s w).procs p).wait_list = ws := by
        simp only [list_drop_pos, hz]
        exact list_remove_cons_self ws w hws
      obtain ⟨s1, r1, r2, r3, r4, r5, r6, r7, r8, r9, r10⟩ :=
        ih (list_drop_pos s w) L p (h.drop_pos w) hp (by
          rw [e1]
          rw [hz] at hn
          simpa using hn)
      refine ⟨s1, ?_, r2, r3, ?_, ?_, r6, r7, r8, ?_, ?_⟩
      · simp only [drain, hz]
        exact r1
      · rw [r4]
        exact list_remove_of_not_mem _ _ hq.1
      · rw [r5]
        exact list_remove_of_not_mem _ _ hq.2
      · intro q hqL hqp
        rw [r9 q hqL hqp]
        refine list_remove_of_not_mem _ _ ?_
        intro hw2
        exact hqp (h.wait_wait q hqL p hp w hw2 hwm)
      · intro q
        exact r10 q

theorem Inv.proc_stat {s : Kernel} {L : List Nat} (h : Inv s L) : proc_stat s = true := by
  unfold Kern.proc_stat
  simp only [Bool.and_eq_true, List.all_eq_true, List.isEmpty_iff]
  refine ⟨fun p hp => (h.exists_iff p).2 (h.ready_live p hp), fun p hp => ?_⟩
  exact ⟨(h.exists_iff p).2 (h.zombie_live p hp), h.zombie_wait p hp⟩

/-- `exit` by the process of a core passes every assertion; the state it
returns. -/
theorem exit_spec {s : Kernel} {L : List Nat} {c p : Nat} (h : Inv s L)
    (hc : s.cpus c = some p) :
    ∃ s1, drain (s.procs p).wait_list.length s p = some s1 ∧
      exit s c = some (sched { s1 with zombie_list := list_push_back s1.zombie_list p } c) ∧
      Inv (sched { s1 with zombie_list := list_push_back s1.zombie_list p } c) L ∧
      (s1.procs p).wait_list = [] ∧
      s1.ready_list = s.ready_list ∧ s1.zombie_list = s.zombie_list ∧ s1.cpus = s.cpus ∧
      s1.hlist = s.hlist ∧ s1.kfreed = s.kfreed ∧
      (∀ q ∈ L, q ≠ p → (s1.procs q).wait_list = (s.procs q).wait_list) ∧
      (∀ q, (s1.procs q).magic = (s.procs q).magic ∧ (s1.procs q).tf = (s.procs q).tf ∧
        (s1.procs q).pgdir = (s.procs q).pgdir) := by
  have hp := h.cur_live c p hc
  obtain ⟨s1, r1, r2, r3, r4, r5, r6, r7, r8, r9, r10⟩ := drain_spec _ s L p h hp (le_refl _)
  have hd : Detached (sched s1 c) L p := Detached.after_clear r2 c p (r6 ▸ hc)
  have h3 : Inv (sched { s1 with zombie_list := list_push_back s1.zombie_list p } c) L :=
    (r2.clear_cur c).push_zombie p hp hd r3
  have h4 : proc_stat { s1 with zombie_list := list_push_back s1.zombie_list p } = true :=
    h3.proc_stat
  refine ⟨s1, r1, ?_, h3, r3, r4, r5, r6, r7, r8, r9, r10⟩
  unfold exit thisproc
  rw [hc]
  dsimp only
  rw [if_pos ((h.exists_iff p).2 hp), r1]
  dsimp only
  rw [if_pos h4]

theorem Inv.step_exit {s s1 : Kernel} {L : List Nat} {c : Nat} (h : Inv s L)
    (e : exit s c = some s1) : Inv s1 L := by
  cases hc : s.cpus c with
  | none => simp [exit, thisproc, hc] at e
  | some p =>
    obtain ⟨s0, -, r2, r3, -⟩ := exit_spec h hc
    rw [r2] at e
    cases e
    exact r3

/-- Every operation preserves the invariant. -/
theorem Inv.step {A : Arch} {s t : Kernel} {L : List Nat} (h : Inv s L) (ev : Event)
    (g : ev.guard A s) (e : ev.next A s = some t) : Inv t (ev.live A s L) := by
  cases ev with
  | user_init b pg img => exact h.step_user_init g e
  | scheduler c => exact h.step_scheduler e
  | fork c b pg =>
    simp only [Event.next, Option.map_eq_some'] at e
    obtain ⟨⟨s2, r⟩, e, rfl⟩ := e
    exact h.step_fork g e
  | wait c p =>
    simp only [Event.next, Option.map_eq_some'] at e
    obtain ⟨⟨s2, r⟩, e, rfl⟩ := e
    exact h.step_wait e
  | serve c =>
    simp only [Event.next, Option.map_eq_some'] at e
    obtain ⟨⟨s2, r⟩, e, rfl⟩ := e
    exact h.step_serve e
  | exit c => exact h.step_exit e

/-- Every reachable state satisfies the invariant. -/
theorem Reachable.inv {A : Arch} {s : Kernel} {L : List Nat} (h : Reachable A s L) :
    Inv s L := by
  induction h with
  | boot s0 h0 =>
    constructor <;> simp [proc_init, h0]
  | step s L ev s1 _ g e ih => exact ih.step ev g e

/-! ## Runs and reachability -/

theorem kalloc_check_sound {A : Arch} {s : Kernel} {L : List Nat} {b : Nat} (h : Inv s L)
    (e : kalloc_check A L b = true) : kalloc_ok A s b := by
  simp only [kalloc_check, Bool.and_eq_true, decide_eq_true_eq, List.all_eq_true,
    Bool.or_eq_true] at e
  exact ⟨e.1.1, e.1.2, fun i q hq => e.2 q (h.hash_mem i q hq).2⟩

theorem Event.check_sound {A : Arch} {s : Kernel} {L : List Nat} (h : Inv s L) (ev : Event)
    (e : ev.check A s L = true) : ev.guard A s := by
  cases ev with
  | user_init b pg img => exact kalloc_check_sound h e
  | scheduler c =>
    simp only [Event.check, Option.isNone_iff_eq_none] at e
    exact e
  | fork c b pg => exact kalloc_check_sound h e
  | wait c p =>
    simp only [Event.check, Option.isSome_iff_exists] at e
    obtain ⟨x, hx⟩ := e
    simp [Event.guard, hx]
  | serve c => trivial
  | exit c => trivial

theorem Reachable.steps {A : Arch} {s t : Kernel} {L M : List Nat} {evs : List Event}
    (h : Steps A s L evs t M) : Reachable A s L → Reachable A t M := by
  induction h with
  | refl s L => exact id
  | cons s L ev t evs u M g e _ ih => exact fun hs => ih (Reachable.step s L ev t hs g e)

/-- A successful `run` from a reachable state is a sequence of guarded steps. -/
theorem run_sound (A : Arch) : ∀ (evs : List Event) (s : Kernel) (L : List Nat)
    (r : Kernel × List Nat), Reachable A s L → run A s L evs = some r →
    Steps A s L evs r.1 r.2 := by
  intro evs
  induction evs with
  | nil =>
    intro s L r _ e
    simp only [run, Option.some.injEq] at e
    subst e
    exact Steps.refl s L
  | cons ev evs ih =>
    intro s L r hs e
    simp only [run] at e
    split at e
    · rename_i hc
      split at e
      · cases e
      · rename_i t ht
        have g := ev.check_sound hs.inv hc
        exact Steps.cons s L ev t evs r.1 r.2 g ht
          (ih t _ r (Reachable.step s L ev t hs g ht) e)
    · cases e

theorem Reachable.boot0 (A : Arch) : Reachable A (proc_init mem0) [] :=
  Reachable.boot mem0 (fun _ => rfl)

theorem run_reachable (A : Arch) (evs : List Event) (r : Kernel × List Nat)
    (e : run A (proc_init mem0) [] evs = some r) : Reachable A r.1 r.2 :=
  Reachable.steps (run_sound A evs _ _ r (Reachable.boot0 A) e) (Reachable.boot0 A)

theorem run_getD (A : Arch) (s : Kernel) (L : List Nat) (evs : List Event)
    (d : Kernel × List Nat) (h : (run A s L evs).isSome = true) :
    run A s L evs = some ((run A s L evs).getD d) := by
  cases hr : run A s L evs with
  | none => rw [hr] at h; cases h
  | some r => rfl

theorem scenarioA_reachable : Reachable arch0 scenarioA.1 scenarioA.2 :=
  run_reachable arch0 scenarioA_events scenarioA (run_getD _ _ _ _ _ (by decide))

/-! ## The calls of `wait` and `serve` on a state that satisfies the invariant -/

theorem reap_nil (A : Arch) (n : Nat) (s : Kernel) (h : s.zombie_list = []) :
    reap A n s = some s := by
  cases n <;> simp [reap, h]

/-- `wait` on a live target that is not a zombie suspends the caller. -/
theorem wait_valid (A : Arch) {s : Kernel} {L : List Nat} {c tp T : Nat} (h : Inv s L)
    (hc : s.cpus c = some tp) (hT : T ∈ L) (hTz : T ∉ s.zombie_list) :
    ∃ s0, reap A s.zombie_list.length s = some s0 ∧ Inv s0 (list_without L s.zombie_list) ∧
      s0.zombie_list = [] ∧ s0.ready_list = s.ready_list ∧ s0.cpus = s.cpus ∧
      (∀ q ∈ L, (s0.procs q).wait_list = (s.procs q).wait_list) ∧
      wait A s c T = some (sched { s0 with
        procs := upd s0.procs T
          { s0.procs T with wait_list := list_push_back (s0.procs T).wait_list tp } } c,
        none) := by
  obtain ⟨s0, r1, r2, r3, r4, r5, r6, -⟩ := reap_inv A h
  refine ⟨s0, r1, r2, r3, r4, r5, r6, ?_⟩
  have hT0 : PROC_EXISTS s0 T = true :=
    (r2.exists_iff T).2 ((mem_list_without _ _ _).2 ⟨hT, hTz⟩)
  unfold wait thisproc
  rw [r1]
  dsimp only
  rw [if_pos hT0, r5, hc]

/-- `wait` on a target that is not live or is a zombie returns `-1`. -/
theorem wait_invalid (A : Arch) {s : Kernel} {L : List Nat} (c : Nat) {T : Nat} (h : Inv s L)
    (hT : T ∉ L ∨ T ∈ s.zombie_list) :
    ∃ s0, reap A s.zombie_list.length s = some s0 ∧ PROC_EXISTS s0 T = false ∧
      wait A s c T = some (s0, some (-1)) := by
  obtain ⟨s0, r1, r2, -⟩ := reap_inv A h
  have hT0 : PROC_EXISTS s0 T = false := by
    rw [Bool.eq_false_iff]
    intro hp
    have := (mem_list_without _ _ _).1 ((r2.exists_iff T).1 hp)
    rcases hT with hT | hT
    · exact hT this.1
    · exact this.2 hT
  refine ⟨s0, r1, hT0, ?_⟩
  unfold wait
  rw [r1]
  dsimp only
  rw [hT0]
  rfl

/-- `serve` with a non-empty wait collection returns its front. -/
theorem serve_front {s : Kernel} {L : List Nat} {c S W : Nat} {ws : List Nat} (h : Inv s L)
    (hc : s.cpus c = some S) (hw : (s.procs S).wait_list = W :: ws) :
    serve s c = some ({ list_drop_pos s W with
        ready_list := list_push_back (list_drop_pos s W).ready_list W }, some W) ∧
      ((list_drop_pos s W).procs S).wait_list = ws ∧
      (list_drop_pos s W).ready_list = s.ready_list ∧
      (list_drop_pos s W).zombie_list = s.zombie_list ∧
      (∀ q ∈ L, q ≠ S → ((list_drop_pos s W).procs q).wait_list = (s.procs q).wait_list) := by
  have hS := h.cur_live c S hc
  have hWm : W ∈ (s.procs S).wait_list := by simp [hw]
  have hWL := h.wait_live S hS W hWm
  have hq := h.wait_queue S hS W hWm
  have hnd : W ∉ ws := by
    have := h.wait_nodup S hS
    rw [hw] at this
    exact (List.nodup_cons.1 this).1
  refine ⟨?_, ?_, list_remove_of_not_mem _ _ hq.1, list_remove_of_not_mem _ _ hq.2, ?_⟩
  · unfold serve thisproc
    rw [hc]
    dsimp only
    rw [hw]
    dsimp only
    rw [if_pos ((h.exists_iff W).2 hWL)]
  · simp only [list_drop_pos, hw]
    exact list_remove_cons_self ws W hnd
  · intro q hqL hqS
    refine list_remove_of_not_mem _ _ ?_
    intro hW2
    exact hqS (h.wait_wait q hqL S hS W hW2 hWm)

theorem stateA_reachable : Reachable arch0 stateA.1 stateA.2 :=
  run_reachable arch0 _ stateA (run_getD _ _ _ _ _ (by decide))

theorem stateABC_reachable : Reachable arch0 stateABC.1 stateABC.2 :=
  run_reachable arch0 _ stateABC (run_getD _ _ _ _ _ (by decide))

theorem stateZ_reachable : Reachable arch0 stateZ.1 stateZ.2 :=
  run_reachable arch0 _ stateZ (run_getD _ _ _ _ _ (by decide))

/-! ## Claims -/

/-- In every reachable state `exit` returns and leaves each waiter of the caller
on no queue, on no wait collection and on no core. -/
theorem exit_drops_waiters {A : Arch} {s : Kernel} {L : List Nat} (h : Reachable A s L)
    (c P : Nat) (hc : s.cpus c = some P) :
    ∃ s1, exit s c = some s1 ∧ (s1.procs P).wait_list = [] ∧
      s1.ready_list = s.ready_list ∧
      ∀ w ∈ (s.procs P).wait_list, w ∉ s1.ready_list ∧ w ∉ s1.zombie_list ∧
        (∀ q ∈ L, w ∉ (s1.procs q).wait_list) ∧ ∀ d, s1.cpus d ≠ some w := by
  have hi := h.inv
  obtain ⟨s0, r1, r2, r3, r4, r5, r6, r7, r8, r9, r10, r11⟩ := exit_spec hi hc
  have hP := hi.cur_live c P hc
  refine ⟨_, r2, r4, r5, ?_⟩
  intro w hw
  have hq := hi.wait_queue P hP w hw
  have hwP : w ≠ P := fun e => (hi.cur_out c P hc).2.2 P hP (e ▸ hw)
  refine ⟨?_, ?_, ?_, ?_⟩
  · show w ∉ s0.ready_list
    rw [r5]
    exact hq.1
  · show w ∉ list_push_back s0.zombie_list P
    rw [r6]
    simp [hq.2, hwP]
  · intro q hqL
    show w ∉ (s0.procs q).wait_list
    by_cases hqP : q = P
    · rw [hqP, r4]
      simp
    · rw [r10 q hqL hqP]
      intro hw2
      exact hqP (hi.wait_wait q hqL P hP w hw2 hw)
  · intro d hd
    have hd2 : s.cpus d = some w := by
      by_cases hdc : d = c
      · subst hdc
        simp [sched] at hd
      · simpa [sched, upd_other _ _ _ _ hdc, r7] using hd
    exact hi.not_cur_of_wait w P hP hw d hd2

/-- C1, at the state of Scenario A: B is the process of core 0 and A, which
called `wait(B)`, is the only member of the wait collection of B. The call of
`exit` by B returns a state in which the wait collection of B is empty and B is
on the zombie queue, but the ready queue is empty: the waiter A was dropped and
not moved to the ready queue. -/
theorem exit_scenarioA_waiter_not_ready :
    Reachable arch0 scenarioA.1 scenarioA.2 ∧
      scenarioA.1.cpus 0 = some procB ∧
      (scenarioA.1.procs procB).wait_list = [procA] ∧
      (exit scenarioA.1 0).map
        (fun s => (s.ready_list, s.zombie_list, (s.procs procB).wait_list, s.cpus 0)) =
        some ([], [procB], [], none) :=
  ⟨scenarioA_reachable, by decide, by decide, by decide⟩

/-- The state after a suspending call of `wait`. -/
theorem wait_suspends (A : Arch) {s : Kernel} {L : List Nat} {c tp T : Nat} (h : Inv s L)
    (hc : s.cpus c = some tp) (hT : T ∈ L) (hTz : T ∉ s.zombie_list) :
    ∃ s1, wait A s c T = some (s1, none) ∧ Inv s1 (list_without L s.zombie_list) ∧
      s1.zombie_list = [] ∧ s1.ready_list = s.ready_list ∧
      s1.cpus c = none ∧ (∀ d, d ≠ c → s1.cpus d = s.cpus d) ∧
      (s1.procs T).wait_list = (s.procs T).wait_list ++ [tp] ∧
      (∀ q ∈ L, q ≠ T → (s1.procs q).wait_list = (s.procs q).wait_list) := by
  obtain ⟨s0, -, -, r3, r4, r5, r6, e1⟩ := wait_valid A h hc hT hTz
  refine ⟨_, e1, h.step_wait e1, r3, r4, ?_, ?_, ?_, ?_⟩
  · simp [sched]
  · intro d hd
    simp only [sched, upd_other _ _ _ _ hd, r5]
  · simp [sched, list_push_back, r6 T hT]
  · intro q hq hqT
    simp only [sched, upd_other _ _ _ _ hqT, r6 q hq]

/-- C2: `serve` is first-in first-out. In a reachable state where the wait
collection of the serving process `S` is `W :: ws`, `serve` returns `W`, leaves
the collection as `ws` and appends `W` at the tail of the ready queue; a call of
`wait(S)` by `W` on an existing `S` that is not a zombie suspends `W` at the tail
of the collection of `S`. And when `W1` and then `W2` call `wait(S)` while the
collection of `S` is empty, both calls suspend and the next two calls of `serve`
by `S` return `W1` and then `W2`. -/
theorem serve_fifo (A : Arch) (s : Kernel) (L : List Nat) (h : Reachable A s L) :
    (∀ c S W ws, s.cpus c = some S → (s.procs S).wait_list = W :: ws →
      ∃ s1, serve s c = some (s1, some W) ∧ (s1.procs S).wait_list = ws ∧
        s1.ready_list = s.ready_list ++ [W]) ∧
    (∀ c W S, s.cpus c = some W → PROC_EXISTS s S = true → S ∉ s.zombie_list →
      ∃ s1, wait A s c S = some (s1, none) ∧
        (s1.procs S).wait_list = (s.procs S).wait_list ++ [W]) ∧
    (∀ c1 c2 c3 W1 W2 S, c1 ≠ c2 → c1 ≠ c3 → c2 ≠ c3 →
      s.cpus c1 = some W1 → s.cpus c2 = some W2 → s.cpus c3 = some S →
      (s.procs S).wait_list = [] →
      ∃ s1 s2 s3 s4, wait A s c1 S = some (s1, none) ∧ wait A s1 c2 S = some (s2, none) ∧
        (s2.procs S).wait_list = [W1, W2] ∧
        serve s2 c3 = some (s3, some W1) ∧ serve s3 c3 = some (s4, some W2)) := by
  have hi := h.inv
  refine ⟨?_, ?_, ?_⟩
  · intro c S W ws hc hw
    obtain ⟨e1, e2, e3, -⟩ := serve_front hi hc hw
    exact ⟨_, e1, e2, by rw [← e3]; rfl⟩
  · intro c W S hc hS hSz
    obtain ⟨s1, e1, -, -, -, -, -, w1, -⟩ :=
      wait_suspends A hi hc ((hi.exists_iff S).1 hS) hSz
    exact ⟨s1, e1, w1⟩
  · intro c1 c2 c3 W1 W2 S n12 n13 n23 h1 h2 h3 hw
    have hS := hi.cur_live c3 S h3
    have hSz : S ∉ s.zombie_list := (hi.cur_out c3 S h3).2.1
    have hS0 : S ∈ list_without L s.zombie_list := (mem_list_without _ _ _).2 ⟨hS, hSz⟩
    obtain ⟨s1, e1, i1, z1, -, -, k1, w1, -⟩ := wait_suspends A hi h1 hS hSz
    have hc2 : s1.cpus c2 = some W2 := by rw [k1 c2 (Ne.symm n12), h2]
    obtain ⟨s2, e2, i2, -, -, -, k2, w2, -⟩ :=
      wait_suspends A i1 hc2 hS0 (by rw [z1]; simp)
    have hc3 : s2.cpus c3 = some S := by
      rw [k2 c3 (Ne.symm n23), k1 c3 (Ne.symm n13), h3]
    have hw2 : (s2.procs S).wait_list = [W1, W2] := by
      rw [w2, w1, hw]
      rfl
    obtain ⟨f1, f2, -⟩ := serve_front i2 hc3 hw2
    have i3 := i2.step_serve f1
    obtain ⟨f3, -⟩ := serve_front i3 hc3 f2
    exact ⟨_, _, _, _, e1, e2, hw2, f1, f3⟩

/-- The witness of `serve_fifo`: in the reachable state in which A, B and C run
on cores 0, 1 and 2, B and then C call `wait(A)` and A calls `serve` twice. -/
theorem serve_fifo_witness :
    Reachable arch0 stateABC.1 stateABC.2 ∧
      ∃ s1 s2 s3 s4, wait arch0 stateABC.1 1 procA = some (s1, none) ∧
        wait arch0 s1 2 procA = some (s2, none) ∧
        (s2.procs procA).wait_list = [procB, procC] ∧
        serve s2 0 = some (s3, some procB) ∧ serve s3 0 = some (s4, some procC) :=
  ⟨stateABC_reachable,
    (serve_fifo arch0 stateABC.1 stateABC.2 stateABC_reachable).2.2 1 2 0 procB procC procA
      (by decide) (by decide) (by decide) (by decide) (by decide) (by decide) (by decide)⟩

/-- Scenario B evaluated: B on core 1 and then C on core 2 call `wait(A)`, then A
on core 0 calls `serve` twice; the calls return B and then C. -/
theorem scenarioB_eval :
    ((wait arch0 stateABC.1 1 procA).bind (fun r1 =>
      (wait arch0 r1.1 2 procA).bind (fun r2 =>
        (serve r2.1 0).bind (fun r3 =>
          (serve r3.1 0).map (fun r4 => (r1.2, r2.2, r3.2, r4.2)))))) =
      some (none, none, some procB, some procC) := by
  decide

theorem proc_alloc_addr_lt (A : Arch) (b : Nat) : proc_alloc_addr A b < 4294967296 := by
  simp only [proc_alloc_addr]
  exact Nat.mod_lt _ (by norm_num)

theorem to_int_emod (p : Nat) (hp : p < 4294967296) : to_int p % 4294967296 = (p : Int) := by
  unfold to_int
  rw [Nat.mod_eq_of_lt hp]
  split <;> omega

/-- The state returned by `fork`. -/
theorem fork_eq {A : Arch} {s : Kernel} {L : List Nat} {c b P : Nat} (pg : Nat) (h : Inv s L)
    (g : kalloc_ok A s b) (hc : s.cpus c = some P) :
    ∃ s1, fork A s c b pg = some (s1, to_int (proc_alloc_addr A b)) ∧
      (s1.procs (proc_alloc_addr A b)).tf = { (s.procs P).tf with eax := 0 } ∧
      (s1.procs (proc_alloc_addr A b)).wait_list = [] ∧
      (s1.procs (proc_alloc_addr A b)).pgdir = pg ∧
      (∀ q, q ≠ proc_alloc_addr A b → s1.procs q = s.procs q) ∧
      s1.ready_list = s.ready_list ++ [proc_alloc_addr A b] ∧
      s1.zombie_list = s.zombie_list ∧ s1.cpus = s.cpus := by
  obtain ⟨hp, -⟩ := kalloc_ok_fresh h g
  have hP : P ≠ proc_alloc_addr A b := fun e => hp (e ▸ h.cur_live c P hc)
  cases hf : fork A s c b pg with
  | none => simp [fork, thisproc, hc] at hf
  | some r =>
    obtain ⟨s1, v⟩ := r
    simp only [fork, thisproc, hc, Option.some.injEq, Prod.mk.injEq] at hf
    obtain ⟨e1, e2⟩ := hf
    subst e1
    subst e2
    refine ⟨_, rfl, ?_, ?_, ?_, ?_, rfl, rfl, rfl⟩
    · simp [proc_alloc, upd, hP]
    · simp [proc_alloc, upd]
    · simp [proc_alloc, upd]
    · intro q hq
      simp [proc_alloc, upd, hq]

/-- C3: in a reachable state where `P` is the process of core `c` and `kalloc`
returns a block `b` that satisfies its contract, `fork` returns `(int)C` for the
descriptor `C` built in `b`, from which `C` is recovered; `C` did not exist before
and exists after; the trap frame of `C` is the trap frame of `P` at the call with
`eax` set to 0; `C` is appended at the tail of the ready queue; the zombie queue,
the core records (so `P` is still the process of core `c`) and every other
descriptor are unchanged, and `P` is on no queue and on no wait collection. -/
theorem fork_child (A : Arch) (s : Kernel) (L : List Nat) (h : Reachable A s L)
    (c b pg P : Nat) (g : kalloc_ok A s b) (hc : s.cpus c = some P) :
    ∃ s1, fork A s c b pg = some (s1, to_int (proc_alloc_addr A b)) ∧
      to_int (proc_alloc_addr A b) % 4294967296 = (proc_alloc_addr A b : Int) ∧
      PROC_EXISTS s (proc_alloc_addr A b) = false ∧
      PROC_EXISTS s1 (proc_alloc_addr A b) = true ∧
      (s1.procs (proc_alloc_addr A b)).tf = { (s.procs P).tf with eax := 0 } ∧
      s1.ready_list = s.ready_list ++ [proc_alloc_addr A b] ∧
      s1.zombie_list = s.zombie_list ∧ s1.cpus = s.cpus ∧ s1.cpus c = some P ∧
      (∀ q, q ≠ proc_alloc_addr A b → s1.procs q = s.procs q) ∧
      P ∉ s1.ready_list ∧ P ∉ s1.zombie_list ∧
      ∀ q, PROC_EXISTS s1 q = true → P ∉ (s1.procs q).wait_list := by
  have hi := h.inv
  obtain ⟨hp, -⟩ := kalloc_ok_fresh hi g
  obtain ⟨s1, e, r1, r2, r3, r4, r5, r6, r7⟩ := fork_eq pg hi g hc
  have i1 := hi.step_fork g e
  have hc1 : s1.cpus c = some P := by rw [r7, hc]
  obtain ⟨o1, o2, o3⟩ := i1.cur_out c P hc1
  refine ⟨s1, e, to_int_emod _ (proc_alloc_addr_lt A b), ?_, ?_, r1, r5, r6, r7, hc1, r4,
    o1, o2, ?_⟩
  · rw [Bool.eq_false_iff]
    exact fun hx => hp ((hi.exists_iff _).1 hx)
  · exact (i1.exists_iff _).2 (by simp)
  · exact fun q hq => o3 q ((i1.exists_iff q).1 hq)

/-- The witness of `fork_child`: A, the process of core 0 and the only process,
forks with `kalloc` returning `blockB`. -/
theorem fork_child_witness :
    Reachable arch0 stateA.1 stateA.2 ∧ kalloc_ok arch0 stateA.1 blockB ∧
      stateA.1.cpus 0 = some procA ∧
      ∃ s1, fork arch0 stateA.1 0 blockB 2 = some (s1, to_int (proc_alloc_addr arch0 blockB)) ∧
        to_int (proc_alloc_addr arch0 blockB) % 4294967296 = (proc_alloc_addr arch0 blockB : Int) ∧
        PROC_EXISTS stateA.1 (proc_alloc_addr arch0 blockB) = false ∧
        PROC_EXISTS s1 (proc_alloc_addr arch0 blockB) = true ∧
        (s1.procs (proc_alloc_addr arch0 blockB)).tf =
          { (stateA.1.procs procA).tf with eax := 0 } ∧
        s1.ready_list = stateA.1.ready_list ++ [proc_alloc_addr arch0 blockB] ∧
        s1.zombie_list = stateA.1.zombie_list ∧ s1.cpus = stateA.1.cpus ∧
        s1.cpus 0 = some procA ∧
        (∀ q, q ≠ proc_alloc_addr arch0 blockB → s1.procs q = stateA.1.procs q) ∧
        procA ∉ s1.ready_list ∧ procA ∉ s1.zombie_list ∧
        ∀ q, PROC_EXISTS s1 q = true → procA ∉ (s1.procs q).wait_list :=
  ⟨stateA_reachable, kalloc_check_sound stateA_reachable.inv (by decide), by decide,
    fork_child arch0 stateA.1 stateA.2 stateA_reachable 0 blockB 2 procA
      (kalloc_check_sound stateA_reachable.inv (by decide)) (by decide)⟩

/-- The descriptor returned by `proc_alloc` passes `PROC_EXISTS`. -/
theorem PROC_EXISTS_alloc (A : Arch) (s : Kernel) (b : Nat) :
    PROC_EXISTS (proc_alloc A s b).1 (proc_alloc A s b).2 = true := by
  rw [PROC_EXISTS_iff]
  simp [proc_alloc]

/-- After `proc_free(p)` returns, `p` fails `PROC_EXISTS`. -/
theorem PROC_EXISTS_free (A : Arch) (s s1 : Kernel) (p : Nat) (e : proc_free A s p = some s1) :
    PROC_EXISTS s1 p = false := by
  unfold proc_free at e
  split at e
  · dsimp only at e
    split at e
    · cases e
    · rename_i hf
      have hs : s1.hlist = (list_drop_hlist s p).hlist := by
        split at e
        · cases e
        · split at e
          · cases e
          · split at e
            · cases e
              rfl
            · cases e
      simp only [PROC_EXISTS, hs, Bool.and_eq_false_imp]
      intro hx
      exact absurd hx hf
  · cases e

/-- C4: in every reachable state, with `L` the descriptors returned by
`proc_alloc` and not passed to `proc_free` since, `PROC_EXISTS(id)` holds exactly
for the members of `L`; it holds for the result of `proc_alloc` right after the
call, and it fails for `id` right after `proc_free(id)` returns. -/
theorem validity_iff_live (A : Arch) (s : Kernel) (L : List Nat) (h : Reachable A s L) :
    (∀ id, PROC_EXISTS s id = true ↔ id ∈ L) ∧
      (∀ b, PROC_EXISTS (proc_alloc A s b).1 (proc_alloc A s b).2 = true) ∧
      (∀ id s1, proc_free A s id = some s1 → PROC_EXISTS s1 id = false) :=
  ⟨h.inv.exists_iff, PROC_EXISTS_alloc A s, fun id s1 e => PROC_EXISTS_free A s s1 id e⟩

/-- The witness of `validity_iff_live`: the reachable state in which A runs and B
and C are zombies. -/
theorem validity_iff_live_witness :
    Reachable arch0 stateZ.1 stateZ.2 ∧
      ((∀ id, PROC_EXISTS stateZ.1 id = true ↔ id ∈ stateZ.2) ∧
        (∀ b, PROC_EXISTS (proc_alloc arch0 stateZ.1 b).1 (proc_alloc arch0 stateZ.1 b).2 = true) ∧
        (∀ id s1, proc_free arch0 stateZ.1 id = some s1 → PROC_EXISTS s1 id = false)) :=
  ⟨stateZ_reachable, validity_iff_live arch0 stateZ.1 stateZ.2 stateZ_reachable⟩

theorem proc_free_fields (A : Arch) (s s1 : Kernel) (p : Nat) (e : proc_free A s p = some s1) :
    s1 = { list_drop_hlist s p with kfreed := s.kfreed ++ [kfree_arg A p] } := by
  unfold proc_free at e
  split at e
  · dsimp only at e
    split at e
    · cases e
    · split at e
      · cases e
      · split at e
        · cases e
        · split at e
          · cases e
            rfl
          · cases e
  · cases e

/-- On any state, when the reclamation loop of `wait` ends without a failed
assertion the zombie queue is empty and every former zombie fails
`PROC_EXISTS`. -/
theorem reap_any (A : Arch) : ∀ (n : Nat) (s s0 : Kernel), reap A n s = some s0 →
    s0.zombie_list = [] ∧ s0.cpus = s.cpus ∧
      (∀ q, (s0.procs q).magic = (s.procs q).magic) ∧
      (∀ i x, x ∈ s0.hlist i → x ∈ s.hlist i) ∧
      ∀ z ∈ s.zombie_list, PROC_EXISTS s0 z = false := by
  intro n
  induction n with
  | zero =>
    intro s s0 e
    simp only [reap] at e
    split at e
    · rename_i hz
      cases e
      have hz2 : s.zombie_list = [] := List.isEmpty_iff.1 hz
      exact ⟨hz2, rfl, fun _ => rfl, fun _ _ hx => hx, by simp [hz2]⟩
    · cases e
  | succ n ih =>
    intro s s0 e
    cases hz : s.zombie_list with
    | nil =>
      simp only [reap, hz, Option.some.injEq] at e
      subst e
      exact ⟨hz, rfl, fun _ => rfl, fun _ _ hx => hx, by simp⟩
    | cons z r =>
      simp only [reap, hz] at e
      cases hf : proc_free A (list_drop_pos s z) z with
      | none => simp [hf] at e
      | some s1 =>
        rw [hf] at e
        simp only [Option.some_bind] at e
        have hz1 := PROC_EXISTS_free A _ s1 z hf
        have hs1 := proc_free_fields A _ s1 z hf
        obtain ⟨a1, a2, a3, a4, a5⟩ := ih s1 s0 e
        have mono : ∀ q, PROC_EXISTS s1 q = false → PROC_EXISTS s0 q = false := by
          intro q hq
          rw [Bool.eq_false_iff] at hq ⊢
          intro hx
          apply hq
          rw [PROC_EXISTS_iff] at hx ⊢
          exact ⟨a4 _ _ hx.1, by rw [← a3 q]; exact hx.2⟩
        refine ⟨a1, ?_, ?_, ?_, ?_⟩
        · rw [a2, hs1]
          rfl
        · intro q
          rw [a3 q, hs1]
          rfl
        · intro i x hx
          have := a4 i x hx
          rw [hs1] at this
          simp only [list_drop_hlist, mem_list_remove] at this
          exact this.1
        · intro y hy
          by_cases hyz : y = z
          · rw [hyz]
            exact mono z hz1
          · apply a5
            rw [hs1]
            simp only [list_drop_hlist, list_drop_pos, mem_list_remove, hz]
            exact ⟨hy, hyz⟩

theorem wait_any (A : Arch) (s s1 : Kernel) (c T : Nat) (r : Option Int)
    (e : wait A s c T = some (s1, r)) :
    ∃ s0, reap A s.zombie_list.length s = some s0 ∧ s1.hlist = s0.hlist ∧
      s1.zombie_list = s0.zombie_list ∧ (∀ q, (s1.procs q).magic = (s0.procs q).magic) ∧
      r = (if PROC_EXISTS s0 T = true then none else some (-1)) := by
  unfold wait thisproc at e
  cases hr : reap A s.zombie_list.length s with
  | none => simp [hr] at e
  | some s0 =>
    rw [hr] at e
    dsimp only at e
    refine ⟨s0, rfl, ?_⟩
    split at e
    · rename_i hp
      split at e
      · cases e
      · simp only [Option.some.injEq, Prod.mk.injEq] at e
        obtain ⟨e1, e2⟩ := e
        subst e1
        subst e2
        refine ⟨rfl, rfl, ?_, by simp [hp]⟩
        intro q
        by_cases hq : q = T
        · subst hq
          simp [sched]
        · simp [sched, upd_other _ _ _ _ hq]
    · rename_i hp
      simp only [Option.some.injEq, Prod.mk.injEq] at e
      obtain ⟨e1, e2⟩ := e
      subst e1
      subst e2
      exact ⟨rfl, rfl, fun _ => rfl, by simp [hp]⟩

/-- On any state, a call of `wait` that does not stop on a failed assertion has
freed every zombie. -/
theorem wait_frees_all (A : Arch) (s s1 : Kernel) (c T : Nat) (r : Option Int)
    (e : wait A s c T = some (s1, r)) :
    s1.zombie_list = [] ∧ ∀ z ∈ s.zombie_list, PROC_EXISTS s1 z = false := by
  obtain ⟨s0, q1, q2, q3, q4, -⟩ := wait_any A s s1 c T r e
  obtain ⟨a1, -, -, -, a5⟩ := reap_any A _ s s0 q1
  refine ⟨by rw [q3, a1], ?_⟩
  intro z hz
  have := a5 z hz
  simp only [PROC_EXISTS, q2, q4] at this ⊢
  exact this

/-- C5: for every state and every target `T`, a call of `wait(T)` that does not
stop on a failed assertion leaves the zombie queue empty and every former zombie
failing `PROC_EXISTS`. In a reachable state where core `c` runs a process the
call does return or suspend, for every target: its reclamation loop ends in a
state `s0` with an empty zombie queue in which every former zombie fails
`PROC_EXISTS`; the target is tested in `s0` (the call fails with `-1` exactly
when `T` fails the test there); and one block per former zombie was handed to
`kfree`. -/
theorem wait_reaps_zombies (A : Arch) (s : Kernel) (c T : Nat) :
    (∀ s1 r, wait A s c T = some (s1, r) →
      s1.zombie_list = [] ∧ ∀ z ∈ s.zombie_list, PROC_EXISTS s1 z = false) ∧
    (∀ L tp, Reachable A s L → s.cpus c = some tp →
      ∃ s0 s1 r, reap A s.zombie_list.length s = some s0 ∧ s0.zombie_list = [] ∧
        (∀ z ∈ s.zombie_list, PROC_EXISTS s0 z = false) ∧
        wait A s c T = some (s1, r) ∧
        r = (if PROC_EXISTS s0 T = true then none else some (-1)) ∧
        s1.zombie_list = [] ∧ (∀ z ∈ s.zombie_list, PROC_EXISTS s1 z = false) ∧
        s1.kfreed = s.kfreed ++ s.zombie_list.map (kfree_arg A)) := by
  refine ⟨fun s1 r e => wait_frees_all A s s1 c T r e, ?_⟩
  intro L tp h hc
  have hi := h.inv
  obtain ⟨s0, r1, -, -, -, -, -, -, -, r9⟩ := reap_inv A hi
  obtain ⟨a1, -, -, -, a5⟩ := reap_any A _ s s0 r1
  have hw : ∃ s1 r, wait A s c T = some (s1, r) := by
    by_cases hT : T ∈ L ∧ T ∉ s.zombie_list
    · obtain ⟨s1, e, -⟩ := wait_suspends A hi hc hT.1 hT.2
      exact ⟨s1, none, e⟩
    · have hT2 : T ∉ L ∨ T ∈ s.zombie_list := by
        by_cases hTL : T ∈ L
        · exact Or.inr (by_contra fun hz => hT ⟨hTL, hz⟩)
        · exact Or.inl hTL
      obtain ⟨t0, -, -, e⟩ := wait_invalid A c hi hT2
      exact ⟨t0, some (-1), e⟩
  obtain ⟨s1, r, e⟩ := hw
  obtain ⟨t0, q1, -, -, -, q5⟩ := wait_any A s s1 c T r e
  rw [r1] at q1
  cases q1
  obtain ⟨b1, b2⟩ := wait_frees_all A s s1 c T r e
  refine ⟨s0, s1, r, r1, a1, a5, e, q5, b1, b2, ?_⟩
  have hk : s1.kfreed = s0.kfreed := by
    unfold wait thisproc at e
    rw [r1] at e
    dsimp only at e
    split at e
    · split at e
      · cases e
      · simp only [Option.some.injEq, Prod.mk.injEq] at e
        obtain ⟨e1, -⟩ := e
        subst e1
        rfl
    · simp only [Option.some.injEq, Prod.mk.injEq] at e
      obtain ⟨e1, -⟩ := e
      subst e1
      rfl
  rw [hk, r9]

/-- The witness of `wait_reaps_zombies`: A, the process of core 0, calls `wait` on
the zombie B while B and C are on the zombie queue. -/
theorem wait_reaps_zombies_witness :
    Reachable arch0 stateZ.1 stateZ.2 ∧ stateZ.1.cpus 0 = some procA ∧
      stateZ.1.zombie_list = [procB, procC] ∧
      ∃ s0 s1 r, reap arch0 stateZ.1.zombie_list.length stateZ.1 = some s0 ∧
        s0.zombie_list = [] ∧
        (∀ z ∈ stateZ.1.zombie_list, PROC_EXISTS s0 z = false) ∧
        wait arch0 stateZ.1 0 procB = some (s1, r) ∧
        r = (if PROC_EXISTS s0 procB = true then none else some (-1)) ∧
        s1.zombie_list = [] ∧ (∀ z ∈ stateZ.1.zombie_list, PROC_EXISTS s1 z = false) ∧
        s1.kfreed = stateZ.1.kfreed ++ stateZ.1.zombie_list.map (kfree_arg arch0) :=
  ⟨stateZ_reachable, by decide, by decide,
    (wait_reaps_zombies arch0 stateZ.1 0 procB).2 stateZ.2 procA stateZ_reachable (by decide)⟩

/-- C6: when the target `T` fails `PROC_EXISTS` in the state `s0` that the
reclamation loop of `wait` ends in, `wait(T)` returns `-1` in state `s0`, without
a switch to the scheduler: the core records are those of the call state and the
zombie queue is empty. When the call state is reachable, the ready queue is
unchanged, the wait collection, tag, trap frame and address space of every
descriptor that existed are unchanged, a descriptor that was not a zombie exists
after the call exactly if it existed before, and the buckets have only lost the
former zombies. -/
theorem wait_invalid_target (A : Arch) (s : Kernel) (c T : Nat) (s0 : Kernel)
    (hr : reap A s.zombie_list.length s = some s0) (hT : PROC_EXISTS s0 T = false) :
    wait A s c T = some (s0, some (-1)) ∧ s0.cpus = s.cpus ∧ s0.zombie_list = [] ∧
      ∀ L, Reachable A s L →
        s0.ready_list = s.ready_list ∧
        (∀ q, PROC_EXISTS s q = true → (s0.procs q).wait_list = (s.procs q).wait_list) ∧
        (∀ q, (s0.procs q).magic = (s.procs q).magic ∧ (s0.procs q).tf = (s.procs q).tf ∧
          (s0.procs q).pgdir = (s.procs q).pgdir) ∧
        (∀ id, id ∉ s.zombie_list → PROC_EXISTS s0 id = PROC_EXISTS s id) ∧
        (∀ i, s0.hlist i = list_without (s.hlist i) s.zombie_list) := by
  obtain ⟨a1, a2, -⟩ := reap_any A _ s s0 hr
  refine ⟨?_, a2, a1, ?_⟩
  · unfold wait
    rw [hr]
    dsimp only
    rw [hT]
    rfl
  · intro L h
    have hi := h.inv
    obtain ⟨t0, r1, r2, -, r4, -, r6, r7, r8, -⟩ := reap_inv A hi
    rw [hr] at r1
    cases r1
    refine ⟨r4, fun q hq => r6 q ((hi.exists_iff q).1 hq), r7, ?_, r8⟩
    intro id hid
    rw [Bool.eq_iff_iff, r2.exists_iff, hi.exists_iff, mem_list_without]
    exact ⟨fun x => x.1, fun x => ⟨x, hid⟩⟩

theorem stateZ_reap :
    reap arch0 stateZ.1.zombie_list.length stateZ.1 = some stateZ_reaped := by
  have h : (reap arch0 stateZ.1.zombie_list.length stateZ.1).isSome = true := by decide
  unfold stateZ_reaped
  cases hr : reap arch0 stateZ.1.zombie_list.length stateZ.1 with
  | none => rw [hr] at h; cases h
  | some r => rfl

/-- The witness of `wait_invalid_target`: A calls `wait` on the zombie B, which
fails `PROC_EXISTS` once the zombie queue is reclaimed. -/
theorem wait_invalid_target_witness :
    reap arch0 stateZ.1.zombie_list.length stateZ.1 = some stateZ_reaped ∧
      PROC_EXISTS stateZ_reaped procB = false ∧
      Reachable arch0 stateZ.1 stateZ.2 ∧
      (wait arch0 stateZ.1 0 procB = some (stateZ_reaped, some (-1)) ∧
        stateZ_reaped.cpus = stateZ.1.cpus ∧ stateZ_reaped.zombie_list = [] ∧
        ∀ L, Reachable arch0 stateZ.1 L →
          stateZ_reaped.ready_list = stateZ.1.ready_list ∧
          (∀ q, PROC_EXISTS stateZ.1 q = true →
            (stateZ_reaped.procs q).wait_list = (stateZ.1.procs q).wait_list) ∧
          (∀ q, (stateZ_reaped.procs q).magic = (stateZ.1.procs q).magic ∧
            (stateZ_reaped.procs q).tf = (stateZ.1.procs q).tf ∧
            (stateZ_reaped.procs q).pgdir = (stateZ.1.procs q).pgdir) ∧
          (∀ id, id ∉ stateZ.1.zombie_list →
            PROC_EXISTS stateZ_reaped id = PROC_EXISTS stateZ.1 id) ∧
          (∀ i, stateZ_reaped.hlist i =
            list_without (stateZ.1.hlist i) stateZ.1.zombie_list)) :=
  ⟨stateZ_reap, by decide, stateZ_reachable,
    wait_invalid_target arch0 stateZ.1 0 procB stateZ_reaped stateZ_reap (by decide)⟩

/-- For every block and every stack size that holds the hack frame, the address
that `proc_free` hands to `kfree` is not the block that `proc_alloc` used. -/
theorem kfree_arg_ne_block (A : Arch) (b : Nat) (h1 : sizeof_hackframe A ≤ A.KSTKSIZE)
    (h2 : b + A.KSTKSIZE ≤ 4294967296) : kfree_arg A (proc_alloc_addr A b) ≠ b := by
  have e := proc_alloc_addr_add A b h1 h2
  simp only [kfree_arg, sizeof_hackframe, sizeof_context, sizeof_proc, sizeof_list_head] at *
  omega

/-- C7, at the block `blockB`: `proc_alloc` builds the descriptor `procB` at
`blockB + KSTKSIZE - sizeof(struct proc)`, and `proc_free(procB)` hands to `kfree`
the address `procB + (sizeof(struct proc) - KSTKSIZE) * sizeof(struct proc)`
modulo 2^32, which is 4029351780 and not `blockB`; the call of `wait` that frees
the zombies B and C hands 4029351780 and 4029384548 to `kfree`, neither of which
is the block of B or of C. -/
theorem proc_free_kfree_not_block :
    proc_alloc_addr arch0 blockB = procB ∧ procB + sizeof_proc = blockB + arch0.KSTKSIZE ∧
      kfree_arg arch0 procB = 4029351780 ∧ kfree_arg arch0 procB ≠ blockB ∧
      stateZ.1.zombie_list = [procB, procC] ∧
      (wait arch0 stateZ.1 0 procB).map (fun r => r.1.kfreed) =
        some [4029351780, 4029384548] ∧
      blockB = 4030758912 ∧ blockC = 4030791680 := by
  decide

/-! ## Claims on every reachable state -/

/-- C8: in every reachable state the ready queue, the zombie queue and the wait
collection of every existing descriptor are duplicate-free; the two queues are
disjoint, every wait collection is disjoint from both queues and from every
other wait collection, and the process of a core is on neither queue and on no
wait collection. -/
theorem position_at_most_one (A : Arch) (s : Kernel) (L : List Nat) (h : Reachable A s L) :
    s.ready_list.Nodup ∧ s.zombie_list.Nodup ∧
      (∀ q, PROC_EXISTS s q = true → (s.procs q).wait_list.Nodup) ∧
      (∀ p ∈ s.ready_list, p ∉ s.zombie_list) ∧
      (∀ q, PROC_EXISTS s q = true →
        ∀ w ∈ (s.procs q).wait_list, w ∉ s.ready_list ∧ w ∉ s.zombie_list) ∧
      (∀ q r, PROC_EXISTS s q = true → PROC_EXISTS s r = true → q ≠ r →
        ∀ w ∈ (s.procs q).wait_list, w ∉ (s.procs r).wait_list) ∧
      (∀ c p, s.cpus c = some p → p ∉ s.ready_list ∧ p ∉ s.zombie_list ∧
        ∀ q, PROC_EXISTS s q = true → p ∉ (s.procs q).wait_list) := by
  have hi := h.inv
  have ex := hi.exists_iff
  refine ⟨hi.ready_nodup, hi.zombie_nodup, fun q hq => hi.wait_nodup q ((ex q).1 hq),
    hi.ready_zombie, fun q hq => hi.wait_queue q ((ex q).1 hq), ?_, ?_⟩
  · intro q r hq hr hne w hw hw2
    exact hne (hi.wait_wait q ((ex q).1 hq) r ((ex r).1 hr) w hw hw2)
  · intro c p hc
    obtain ⟨a, b, d⟩ := hi.cur_out c p hc
    exact ⟨a, b, fun q hq => d q ((ex q).1 hq)⟩

/-- The witness of `position_at_most_one`: the reachable state of Scenario A in
which B runs on core 0 and A is on the wait collection of B. -/
theorem position_at_most_one_witness :
    Reachable arch0 scenarioA.1 scenarioA.2 ∧
      (scenarioA.1.ready_list.Nodup ∧ scenarioA.1.zombie_list.Nodup ∧
      (∀ q, PROC_EXISTS scenarioA.1 q = true → (scenarioA.1.procs q).wait_list.Nodup) ∧
      (∀ p ∈ scenarioA.1.ready_list, p ∉ scenarioA.1.zombie_list) ∧
      (∀ q, PROC_EXISTS scenarioA.1 q = true →
        ∀ w ∈ (scenarioA.1.procs q).wait_list,
          w ∉ scenarioA.1.ready_list ∧ w ∉ scenarioA.1.zombie_list) ∧
      (∀ q r, PROC_EXISTS scenarioA.1 q = true → PROC_EXISTS scenarioA.1 r = true → q ≠ r →
        ∀ w ∈ (scenarioA.1.procs q).wait_list, w ∉ (scenarioA.1.procs r).wait_list) ∧
      (∀ c p, scenarioA.1.cpus c = some p →
        p ∉ scenarioA.1.ready_list ∧ p ∉ scenarioA.1.zombie_list ∧
        ∀ q, PROC_EXISTS scenarioA.1 q = true → p ∉ (scenarioA.1.procs q).wait_list)) :=
  ⟨scenarioA_reachable, position_at_most_one arch0 scenarioA.1 scenarioA.2 scenarioA_reachable⟩

/-- The amended C9 at a run with a call of `wait`: after B has called `exit`, Z
calls `exit` and A calls `wait(B)`. No descriptor is built; B fails `PROC_EXISTS`
and is on neither queue and on no core. -/
theorem exit_never_dispatched_eval :
    (∀ ev ∈ [Event.exit 2, Event.wait 0 procB], ev.allocates arch0 ≠ some procB) ∧
      PROC_EXISTS stateABZ_freed.1 procB = false ∧
      (stateABZ_freed.1.ready_list, stateABZ_freed.1.zombie_list,
        stateABZ_freed.1.cpus 0, stateABZ_freed.1.cpus 1, stateABZ_freed.1.cpus 2) =
        ([], [], some procA, none, none) := by
  decide

/-- C10: in every reachable state no two cores have the same process and the
process of a core is not on the ready queue. A pass of the scheduler on an idle
core removes the head of the ready queue and records it as the process of the
core. The yield of `serve` is the one place where a process is on the ready
queue while it is the process of its core: between `list_push_back` and
`sched()`, inside the step, after which the core runs no process. -/
theorem no_double_dispatch (A : Arch) (s : Kernel) (L : List Nat) (h : Reachable A s L) :
    (∀ c d p, s.cpus c = some p → s.cpus d = some p → c = d) ∧
      (∀ c p, s.cpus c = some p → p ∉ s.ready_list) ∧
      (∀ c p r, s.cpus c = none → s.ready_list = p :: r →
        ∃ s1, scheduler s c = some s1 ∧ s1.ready_list = r ∧ s1.cpus c = some p ∧
          ∀ d, d ≠ c → s1.cpus d = s.cpus d) ∧
      (∀ c tp, s.cpus c = some tp → (s.procs tp).wait_list = [] →
        serve s c =
            some (sched { s with ready_list := list_push_back s.ready_list tp } c, none) ∧
          tp ∈ ({ s with ready_list := list_push_back s.ready_list tp } : Kernel).ready_list ∧
          ({ s with ready_list := list_push_back s.ready_list tp } : Kernel).cpus c = some tp ∧
          (sched { s with ready_list := list_push_back s.ready_list tp } c).cpus c = none) := by
  have hi := h.inv
  refine ⟨hi.cur_inj, fun c p hc => (hi.cur_out c p hc).1, ?_, ?_⟩
  · intro c p r _ hr
    refine ⟨_, scheduler_eq hi c p r hr, ?_, by simp, ?_⟩
    · simp only [list_drop_pos, hr]
      have := hi.ready_nodup
      rw [hr] at this
      exact list_remove_cons_self r p (List.nodup_cons.1 this).1
    · intro d hd
      simp only [upd_other _ _ _ _ hd]
  · intro c tp hc hw
    refine ⟨?_, by simp, hc, by simp [sched]⟩
    simp only [serve, thisproc, hc, hw]

/-- The witness of `no_double_dispatch`: the reachable state in which A, B and C
run on cores 0, 1 and 2. -/
theorem no_double_dispatch_witness :
    Reachable arch0 stateABC.1 stateABC.2 ∧
      (stateABC.1.cpus 0, stateABC.1.cpus 1, stateABC.1.cpus 2) =
        (some procA, some procB, some procC) ∧
      ((∀ c d p, stateABC.1.cpus c = some p → stateABC.1.cpus d = some p → c = d) ∧
      (∀ c p, stateABC.1.cpus c = some p → p ∉ stateABC.1.ready_list) ∧
      (∀ c p r, stateABC.1.cpus c = none → stateABC.1.ready_list = p :: r →
        ∃ s1, scheduler stateABC.1 c = some s1 ∧ s1.ready_list = r ∧ s1.cpus c = some p ∧
          ∀ d, d ≠ c → s1.cpus d = stateABC.1.cpus d) ∧
      (∀ c tp, stateABC.1.cpus c = some tp → (stateABC.1.procs tp).wait_list = [] →
        serve stateABC.1 c =
            some (sched { stateABC.1 with
              ready_list := list_push_back stateABC.1.ready_list tp } c, none) ∧
          tp ∈ ({ stateABC.1 with
            ready_list := list_push_back stateABC.1.ready_list tp } : Kernel).ready_list ∧
          ({ stateABC.1 with
            ready_list := list_push_back stateABC.1.ready_list tp } : Kernel).cpus c = some tp ∧
          (sched { stateABC.1 with
            ready_list := list_push_back stateABC.1.ready_list tp } c).cpus c = none)) :=
  ⟨stateABC_reachable, by decide,
    no_double_dispatch arch0 stateABC.1 stateABC.2 stateABC_reachable⟩

/-! ## The assertions of `proc.c` -/

/-- Every call of `proc_free` made by the first loop of `wait` is on a state that
satisfies the invariant, with a live argument that has no waiter, and passes
the five assertions of `proc_free`. -/
theorem reap_calls_ok (A : Arch) : ∀ (n : Nat) (s : Kernel) (L : List Nat), Inv s L →
    ∀ x ∈ reap_calls A n s, (∃ M, Inv x.1 M ∧ x.2 ∈ M) ∧ (x.1.procs x.2).wait_list = [] ∧
      (proc_free A x.1 x.2).isSome = true := by
  intro n
  induction n with
  | zero =>
    intro s L _ x hx
    simp [reap_calls] at hx
  | succ n ih =>
    intro s L h x hx
    cases hz : s.zombie_list with
    | nil => simp [reap_calls, hz] at hx
    | cons z r =>
      have hzm : z ∈ s.zombie_list := by simp [hz]
      have hzL := h.zombie_live z hzm
      have h1 := h.drop_pos z
      have hd : Detached (list_drop_pos s z) L z :=
        Detached.after_drop z (h.not_cur_of_zombie z hzm)
      have hw : ((list_drop_pos s z).procs z).wait_list = [] := by
        simp [list_drop_pos, h.zombie_wait z hzm, list_remove]
      have e := proc_free_eq A h1 z hzL hw
      simp only [reap_calls, hz, e, List.mem_cons] at hx
      rcases hx with hx | hx
      · subst hx
        exact ⟨⟨L, h1, hzL⟩, hw, by simp [e]⟩
      · exact ih _ _ (h1.free z _ hd) x hx

/-- The first loop of `wait` calls `proc_free` on every member of the zombie
queue of a state that satisfies the invariant. -/
theorem reap_calls_all (A : Arch) : ∀ (n : Nat) (s : Kernel) (L : List Nat), Inv s L →
    s.zombie_list.length ≤ n → (reap_calls A n s).map (fun x => x.2) = s.zombie_list := by
  intro n
  induction n with
  | zero =>
    intro s L _ hn
    have hz : s.zombie_list = [] := List.length_eq_zero.1 (Nat.le_zero.1 hn)
    simp [reap_calls, hz]
  | succ n ih =>
    intro s L h hn
    cases hz : s.zombie_list with
    | nil => simp [reap_calls, hz]
    | cons z r =>
      have hzm : z ∈ s.zombie_list := by simp [hz]
      have hzr : z ∉ r := by
        have := h.zombie_nodup
        rw [hz] at this
        exact (List.nodup_cons.1 this).1
      have hzL := h.zombie_live z hzm
      have h1 := h.drop_pos z
      have hd : Detached (list_drop_pos s z) L z :=
        Detached.after_drop z (h.not_cur_of_zombie z hzm)
      have hw : ((list_drop_pos s z).procs z).wait_list = [] := by
        simp [list_drop_pos, h.zombie_wait z hzm, list_remove]
      have e := proc_free_eq A h1 z hzL hw
      have hz2 : (list_drop_pos s z).zombie_list = r := by
        simp only [list_drop_pos, hz]
        exact list_remove_cons_self r z hzr
      have hl : r.length ≤ n := by
        rw [hz] at hn
        simpa using hn
      have := ih _ _ (h1.free z ((list_drop_pos s z).kfreed ++ [kfree_arg A z]) hd)
        (by simp only [list_drop_hlist]; rw [hz2]; exact hl)
      simp only [reap_calls, hz, e, List.map_cons]
      rw [this]
      simp only [list_drop_hlist]
      rw [hz2]

theorem stateMix_reachable : Reachable arch0 stateMix.1 stateMix.2 :=
  run_reachable arch0 _ stateMix (run_getD _ _ _ _ _ (by decide))

/-- C11: in every reachable state every member of the zombie queue has an empty
wait collection. `exit` empties the wait collection of its caller before it
pushes the caller on the zombie queue, and `proc_stat`, called there, passes
its assertions; `wait` enqueues its caller only on a target that is not a
zombie, after it has emptied the zombie queue; and the first loop of `wait` calls
`proc_free` on every zombie in turn, each time on a descriptor with an empty
wait collection, so that the call passes its assertions. -/
theorem zombies_have_no_waiters (A : Arch) (s : Kernel) (L : List Nat)
    (h : Reachable A s L) :
    (∀ z ∈ s.zombie_list, (s.procs z).wait_list = []) ∧
    (∀ c P, s.cpus c = some P →
      ∃ s1, drain (s.procs P).wait_list.length s P = some s1 ∧
        (s1.procs P).wait_list = [] ∧
        (∀ z ∈ list_push_back s1.zombie_list P, (s1.procs z).wait_list.isEmpty = true) ∧
        proc_stat { s1 with zombie_list := list_push_back s1.zombie_list P } = true ∧
        exit s c = some (sched { s1 with zombie_list := list_push_back s1.zombie_list P } c)) ∧
    (∀ c T s1, wait A s c T = some (s1, none) → T ∉ s.zombie_list ∧ s1.zombie_list = []) ∧
    ((reap_calls A s.zombie_list.length s).map (fun x => x.2) = s.zombie_list ∧
      ∀ x ∈ reap_calls A s.zombie_list.length s,
        (x.1.procs x.2).wait_list.isEmpty = true ∧ (proc_free A x.1 x.2).isSome = true) := by
  have hi := h.inv
  refine ⟨hi.zombie_wait, ?_, ?_, reap_calls_all A _ s L hi (le_refl _), ?_⟩
  · intro c P hc
    obtain ⟨s1, r1, r2, r3, r4, -⟩ := exit_spec hi hc
    refine ⟨s1, r1, r4, ?_, r3.proc_stat, r2⟩
    intro z hz
    rw [List.isEmpty_iff]
    exact r3.zombie_wait z hz
  · intro c T s1 e
    obtain ⟨s0, q1, -, q3, -, q5⟩ := wait_any A s s1 c T none e
    obtain ⟨t0, r1, r2, r3, -⟩ := reap_inv A hi
    rw [q1] at r1
    cases r1
    refine ⟨?_, by rw [q3, r3]⟩
    intro hT
    have hx : PROC_EXISTS s0 T = true := by
      by_contra hne
      simp [hne] at q5
    exact ((mem_list_without _ _ _).1 ((r2.exists_iff T).1 hx)).2 hT
  · intro x hx
    obtain ⟨-, a2, a3⟩ := reap_calls_ok A _ s L hi x hx
    exact ⟨by rw [List.isEmpty_iff]; exact a2, a3⟩

/-- The witness of `zombies_have_no_waiters`: the reachable state in which A runs
on core 0 and B and C are on the zombie queue. -/
theorem zombies_have_no_waiters_witness :
    Reachable arch0 stateZ.1 stateZ.2 ∧ stateZ.1.zombie_list = [procB, procC] ∧
      (stateZ.1.procs procB).wait_list = [] ∧ (stateZ.1.procs procC).wait_list = [] ∧
      (reap_calls arch0 stateZ.1.zombie_list.length stateZ.1).map (fun x => x.2) =
        [procB, procC] ∧
      ∀ x ∈ reap_calls arch0 stateZ.1.zombie_list.length stateZ.1,
        (x.1.procs x.2).wait_list.isEmpty = true ∧ (proc_free arch0 x.1 x.2).isSome = true :=
  ⟨stateZ_reachable, by decide,
    (zombies_have_no_waiters arch0 stateZ.1 stateZ.2 stateZ_reachable).1 procB (by decide),
    (zombies_have_no_waiters arch0 stateZ.1 stateZ.2 stateZ_reachable).1 procC (by decide),
    by decide,
    (zombies_have_no_waiters arch0 stateZ.1 stateZ.2 stateZ_reachable).2.2.2.2⟩

/-- C12: in every reachable state every member of the ready queue, of the zombie
queue and of the wait collection of an existing descriptor passes
`PROC_EXISTS`. Hence a pass of the scheduler never fails its assertion on the
dispatched head of the ready queue, `serve` never fails its assertion on the
front waiter, and no call of `proc_free` by the first loop of `wait` fails its
entry assertion. -/
theorem queued_descriptors_exist (A : Arch) (s : Kernel) (L : List Nat)
    (h : Reachable A s L) :
    (∀ p ∈ s.ready_list, PROC_EXISTS s p = true) ∧
    (∀ p ∈ s.zombie_list, PROC_EXISTS s p = true) ∧
    (∀ q, PROC_EXISTS s q = true → ∀ w ∈ (s.procs q).wait_list, PROC_EXISTS s w = true) ∧
    (∀ c, (∀ p r, s.ready_list = p :: r → PROC_EXISTS (list_drop_pos s p) p = true) ∧
      ∃ s1, scheduler s c = some s1) ∧
    (∀ c tp W ws, s.cpus c = some tp → (s.procs tp).wait_list = W :: ws →
      PROC_EXISTS s W = true ∧ ∃ s1, serve s c = some (s1, some W)) ∧
    (∀ x ∈ reap_calls A s.zombie_list.length s, PROC_EXISTS x.1 x.2 = true) := by
  have hi := h.inv
  have ex := hi.exists_iff
  refine ⟨fun p hp => (ex p).2 (hi.ready_live p hp), fun p hp => (ex p).2 (hi.zombie_live p hp),
    fun q hq w hw => (ex w).2 (hi.wait_live q ((ex q).1 hq) w hw), ?_, ?_, ?_⟩
  · intro c
    constructor
    · intro p r hr
      have hp : p ∈ s.ready_list := by simp [hr]
      exact ((hi.drop_pos p).exists_iff p).2 (hi.ready_live p hp)
    · cases hr : s.ready_list with
      | nil => exact ⟨s, by simp [scheduler, hr]⟩
      | cons p r => exact ⟨_, scheduler_eq hi c p r hr⟩
  · intro c tp W ws hc hw
    have hW : W ∈ (s.procs tp).wait_list := by simp [hw]
    exact ⟨(ex W).2 (hi.wait_live tp (hi.cur_live c tp hc) W hW), _, (serve_front hi hc hw).1⟩
  · intro x hx
    obtain ⟨⟨M, a1, a2⟩, -⟩ := reap_calls_ok A _ s L hi x hx
    exact (a1.exists_iff x.2).2 a2

/-- The witness of `queued_descriptors_exist`: the reachable state in which A
runs on core 0, B is on the wait collection of A, C is on the zombie queue and D
is on the ready queue. -/
theorem queued_descriptors_exist_witness :
    Reachable arch0 stateMix.1 stateMix.2 ∧
      (stateMix.1.ready_list, stateMix.1.zombie_list, (stateMix.1.procs procA).wait_list,
        stateMix.1.cpus 0) = ([procD], [procC], [procB], some procA) ∧
      PROC_EXISTS stateMix.1 procD = true ∧ PROC_EXISTS stateMix.1 procC = true ∧
      PROC_EXISTS stateMix.1 procB = true ∧
      (∃ s1, scheduler stateMix.1 1 = some s1) ∧
      (∃ s1, serve stateMix.1 0 = some (s1, some procB)) ∧
      ∀ x ∈ reap_calls arch0 stateMix.1.zombie_list.length stateMix.1,
        PROC_EXISTS x.1 x.2 = true :=
  ⟨stateMix_reachable, by decide,
    (queued_descriptors_exist arch0 stateMix.1 stateMix.2 stateMix_reachable).1 procD
      (by decide),
    (queued_descriptors_exist arch0 stateMix.1 stateMix.2 stateMix_reachable).2.1 procC
      (by decide),
    (queued_descriptors_exist arch0 stateMix.1 stateMix.2 stateMix_reachable).2.2.1 procA
      (by decide) procB (by decide),
    ((queued_descriptors_exist arch0 stateMix.1 stateMix.2 stateMix_reachable).2.2.2.1 1).2,
    ((queued_descriptors_exist arch0 stateMix.1 stateMix.2 stateMix_reachable).2.2.2.2.1
      0 procA procB [] (by decide) (by decide)).2,
    (queued_descriptors_exist arch0 stateMix.1 stateMix.2 stateMix_reachable).2.2.2.2.2⟩

end Kern
